import Mathlib

/-!
# Verification of the radix-sort repository (`src/radix/radix.rs`, `src/main.rs`)

Shallow embedding of the byte-bucket radix-sort engines and the byte
extractor.  Machine values of width `w` bits are modelled as natural numbers
below `2 ^ w` (their unsigned bit pattern); signed integers are related to
patterns through two's complement (`toUnsigned` / `toSigned`); `f32`/`f64`
values are represented by their IEEE-754 bit patterns, which is all the code
ever inspects.  The unchecked scatter writes of the Rust code are modelled
with checked (`Option`-returning) indexing, so that reaching the `none`
branch corresponds exactly to an out-of-bounds access.
-/

namespace RadixRs

/-! ## Fixed parameters (radix.rs lines 13-17) -/

def MASK : Nat := 0xff
def SHIFT_BITS : Nat := 8
def NUM_BUCKETS : Nat := 256
def FIRST_NEG_BUCKET : Nat := NUM_BUCKETS / 2

/-! ## The byte extractor (`Radix::to_radix`, radix.rs lines 30-67)

`radix_for_type!($type)` generates, for a `w`-bit unsigned type,
`(((mask << offset) & *self) >> offset) as usize`.  The shift of `mask`
happens inside the `w`-bit type, hence the `% 2 ^ w`; `x` is a `w`-bit
pattern; the right shift is a logical shift. -/

def toRadix (w : Nat) (x : Nat) (offset : Nat) : Nat :=
  (((MASK <<< offset) % 2 ^ w) &&& x) >>> offset

/-- Two's-complement reinterpretation of a signed value as a `w`-bit
unsigned pattern: the `transmute::<iN, uN>` of
`radix_for_type_with_transmute!`. -/
def toUnsigned (w : Nat) (v : Int) : Nat := (v % (2 ^ w : Nat)).toNat

/-- Reading a `w`-bit pattern back as a two's-complement signed value. -/
def toSigned (w : Nat) (x : Nat) : Int :=
  if x < 2 ^ (w - 1) then (x : Int) else (x : Int) - 2 ^ w

/-- `impl Radix for iN` (radix.rs lines 63-65): transmute to the unsigned
type, then extract the byte. -/
def toRadixInt (w : Nat) (v : Int) (offset : Nat) : Nat :=
  toRadix w (toUnsigned w v) offset

/-! ## The counting pass (radix.rs lines 122-125 / 179-182)

`counts` is a table, modelled as a function `Nat → Nat`; the loop
`vals.iter().map(|n| n.to_radix(shift)).for_each(|b| counts[b] += 1)`
is a fold that bumps one entry per element, starting from the zeroed table. -/

def updF (f : Nat → Nat) (i v : Nat) : Nat → Nat :=
  fun j => if j = i then v else f j

def countLoop (β : Nat → Nat) (l : List Nat) : Nat → Nat :=
  l.foldl (fun c x => updF c (β x) (c (β x) + 1)) (fun _ => 0)

/-! ## Offset tables

Each offset-building loop of the Rust code fully determines the entries it
later reads by a first assignment plus a recurrence; the definitions below
are those recurrences.  `sumFrom c lo k = c lo + c (lo+1) + ⋯ + c (lo+k-1)`
models `counts[lo..lo+k].iter().sum()`. -/

def sumFrom (c : Nat → Nat) (lo : Nat) : Nat → Nat
  | 0 => 0
  | k + 1 => sumFrom c lo k + c (lo + k)

/-- Non-final passes (radix.rs lines 140-143 / 195-198):
`offsets[0] = 0; offsets[i] = offsets[i-1] + counts[i-1]`. -/
def offsetsAsc (c : Nat → Nat) : Nat → Nat
  | 0 => 0
  | i + 1 => offsetsAsc c i + c i

/-- Final pass, buckets `0..128` (radix.rs lines 130-131 / 188-189):
`offsets[0] = counts[128..].iter().sum();
 offsets[i] = offsets[i-1] + counts[i-1]` for `i` in `1..128`. -/
def offsetsFinalLow (c : Nat → Nat) : Nat → Nat
  | 0 => sumFrom c FIRST_NEG_BUCKET (NUM_BUCKETS - FIRST_NEG_BUCKET)
  | i + 1 => offsetsFinalLow c i + c i

/-- Integer engine final pass, buckets `128..256` (radix.rs lines 192-193),
indexed by `j = bucket - 128`:
`offsets[128] = 0; offsets[i] = offsets[i-1] + counts[i-1]` for `i` in
`129..256`. -/
def offsetsIntFinalHigh (c : Nat → Nat) : Nat → Nat
  | 0 => 0
  | j + 1 => offsetsIntFinalHigh c j + c (FIRST_NEG_BUCKET + j)

/-- The scatter-start offset table of the integer engine's final pass
(radix.rs lines 186-193). -/
def offsetsIntFinal (c : Nat → Nat) (b : Nat) : Nat :=
  if b < FIRST_NEG_BUCKET then offsetsFinalLow c b
  else offsetsIntFinalHigh c (b - FIRST_NEG_BUCKET)

/-- Float engine final pass, descending prefix sum (radix.rs lines 134-135),
indexed by `j = 255 - bucket`:
`offsets[255] = 0; offsets[254-i] = offsets[255-i] + counts[255-i]`
for `i` in `0..127`. -/
def offsetsDescF (c : Nat → Nat) : Nat → Nat
  | 0 => 0
  | j + 1 => offsetsDescF c j + c (NUM_BUCKETS - 1 - j)

/-- The float engine's negative-bucket offsets right after the descending
prefix-sum loop, before the `offsets[i] += counts[i]` adjustment
(meaningful for `128 ≤ b ≤ 255`). -/
def offsetsFloatPre (c : Nat → Nat) (b : Nat) : Nat :=
  offsetsDescF c (NUM_BUCKETS - 1 - b)

/-- The scatter-start offset table of the float engine's final pass
(radix.rs lines 129-138), including the
`(FIRST_NEG_BUCKET..NUM_BUCKETS).for_each(|i| offsets[i] += counts[i])`
adjustment. -/
def offsetsFloatFinal (c : Nat → Nat) (b : Nat) : Nat :=
  if b < FIRST_NEG_BUCKET then offsetsFinalLow c b
  else offsetsFloatPre c b + c b

/-! ## The scatter loop (radix.rs lines 145-158 / 200-206)

The loop reads the working buffer (`vals_buf`) left to right and writes into
the destination (`vals`, whose stale contents are the initial `dest`) at
`offsets[b]`, with the float engine's final pass using decrement-then-write
for buckets `b ≥ 128` and increment-after-write everywhere else.  The
`get_unchecked` accesses are modelled as checked indexing: out of bounds
(including the `usize` underflow of `offsets[b] -= 1`) yields `none`. -/

def scatter (β : Nat → Nat) (isDec : Nat → Bool) :
    List Nat → List Nat → (Nat → Nat) → Option (List Nat)
  | [], dest, _ => some dest
  | x :: rest, dest, offs =>
    if β x < NUM_BUCKETS then
      if isDec (β x) then
        if 0 < offs (β x) ∧ offs (β x) - 1 < dest.length then
          scatter β isDec rest (dest.set (offs (β x) - 1) x) (updF offs (β x) (offs (β x) - 1))
        else none
      else
        if offs (β x) < dest.length then
          scatter β isDec rest (dest.set (offs (β x)) x) (updF offs (β x) (offs (β x) + 1))
        else none
    else none

/-! ## The two engines

One pass = count, build offsets, scatter, copy back (the copy makes the
next pass's read buffer equal to its input, so a pass is a function of a
single list).  `num_iters = size_of::<T>() = nb` bytes, pass `n_iter` uses
`shift_bits = (n_iter * SHIFT_BITS) as u8` and is final when
`n_iter == num_iters - 1`. -/

def intPass (w shift : Nat) (isFinal : Bool) (l : List Nat) : Option (List Nat) :=
  let β := fun x => toRadix w x shift
  let c := countLoop β l
  let offs := if isFinal then offsetsIntFinal c else offsetsAsc c
  scatter β (fun _ => false) l l offs

def floatPass (w shift : Nat) (isFinal : Bool) (l : List Nat) : Option (List Nat) :=
  let β := fun x => toRadix w x shift
  let c := countLoop β l
  let offs := if isFinal then offsetsFloatFinal c else offsetsAsc c
  scatter β (fun b => isFinal && decide (FIRST_NEG_BUCKET ≤ b)) l l offs

def runPasses (step : Nat → List Nat → Option (List Nat)) :
    List Nat → List Nat → Option (List Nat)
  | [], l => some l
  | i :: is, l => (step i l).bind (runPasses step is)

/-- `radix_sort_int` (radix.rs lines 167-209) for a `nb`-byte integer type,
acting on unsigned bit patterns. -/
def radix_sort_int (nb : Nat) (vals : List Nat) : Option (List Nat) :=
  runPasses (fun i l => intPass (8 * nb) (i * SHIFT_BITS % 256) (i == nb - 1) l)
    (List.range nb) vals

/-- `radix_sort_float` (radix.rs lines 110-161) for a `nb`-byte float type,
acting on IEEE-754 bit patterns. -/
def radix_sort_float (nb : Nat) (vals : List Nat) : Option (List Nat) :=
  runPasses (fun i l => floatPass (8 * nb) (i * SHIFT_BITS % 256) (i == nb - 1) l)
    (List.range nb) vals

/-! ## Specification-side orders

`keyS w` linearises the two's-complement order on `w`-bit patterns;
`keyF w` linearises the sign-corrected bit-pattern order used for floats
(negative patterns first, in descending pattern order). -/

def keyS (w : Nat) (x : Nat) : Nat := (x + 2 ^ (w - 1)) % 2 ^ w

def keyF (w : Nat) (x : Nat) : Nat :=
  if x < 2 ^ (w - 1) then x + 2 ^ (w - 1) else 2 ^ w - 1 - x

/-- Stable grouping of `l` by `key`, blocks laid out in the order given by
`order`. -/
def blocksOf (key : Nat → Nat) (order : List Nat) (l : List Nat) : List Nat :=
  (order.map (fun u => l.filter (fun x => key x = u))).flatten

/-- Number of elements of `l` whose byte (under `β`) is `b`. -/
def cntOf (β : Nat → Nat) (l : List Nat) (b : Nat) : Nat :=
  (l.filter (fun x => β x = b)).length

/-! ## Basic facts about the byte extractor -/

theorem toRadix_le (w x s : Nat) : toRadix w x s ≤ 255 := by
  have h1 : ((MASK <<< s) % 2 ^ w) &&& x ≤ MASK <<< s :=
    le_trans Nat.and_le_left (Nat.mod_le _ _)
  have h2 : (((MASK <<< s) % 2 ^ w) &&& x) >>> s ≤ (MASK <<< s) >>> s :=
    by simpa [Nat.shiftRight_eq_div_pow] using Nat.div_le_div_right (c := 2 ^ s) h1
  calc toRadix w x s ≤ (MASK <<< s) >>> s := h2
    _ = MASK := Nat.shiftLeft_shiftRight _ _
    _ ≤ 255 := le_refl _

theorem toRadix_lt_numBuckets (w x s : Nat) : toRadix w x s < NUM_BUCKETS :=
  lt_of_le_of_lt (toRadix_le w x s) (by norm_num [NUM_BUCKETS])

/-- For a byte-aligned offset that fits in the type width, `to_radix` extracts
exactly the byte `x / 2^s % 256` of the bit pattern. -/
theorem toRadix_eq (w x s : Nat) (h : s + 8 ≤ w) :
    toRadix w x s = x / 2 ^ s % 256 := by
  have hmask : MASK = 2 ^ 8 - 1 := by norm_num [MASK]
  have hm : (MASK <<< s) % 2 ^ w = MASK <<< s := by
    apply Nat.mod_eq_of_lt
    calc MASK <<< s = MASK * 2 ^ s := Nat.shiftLeft_eq _ _
      _ < 2 ^ 8 * 2 ^ s := by
          have : MASK < 2 ^ 8 := by norm_num [MASK]
          exact (Nat.mul_lt_mul_right (Nat.pos_pow_of_pos s (by norm_num))).mpr this
      _ = 2 ^ (s + 8) := by rw [← pow_add, Nat.add_comm]
      _ ≤ 2 ^ w := Nat.pow_le_pow_right (by norm_num) h
  have key : (MASK <<< s) &&& x = (x >>> s % 2 ^ 8) <<< s := by
    apply Nat.eq_of_testBit_eq
    intro i
    rw [Nat.testBit_and, Nat.testBit_shiftLeft, Nat.testBit_shiftLeft,
      Nat.testBit_mod_two_pow, Nat.testBit_shiftRight, hmask,
      Nat.testBit_two_pow_sub_one]
    by_cases hsi : s ≤ i
    · have : s + (i - s) = i := by omega
      simp [ge_iff_le, hsi, this, Bool.and_comm, Bool.and_left_comm]
    · simp [ge_iff_le, hsi]
  rw [toRadix, hm, key, Nat.shiftLeft_shiftRight, Nat.shiftRight_eq_div_pow]
  norm_num

/-! ## The counting loop counts byte occurrences -/

theorem cntOf_nil (β : Nat → Nat) (b : Nat) : cntOf β [] b = 0 := rfl

theorem cntOf_cons (β : Nat → Nat) (x : Nat) (l : List Nat) (b : Nat) :
    cntOf β (x :: l) b = if β x = b then cntOf β l b + 1 else cntOf β l b := by
  by_cases h : β x = b <;> simp [cntOf, List.filter_cons, h]

theorem updF_self (f : Nat → Nat) (i v : Nat) : updF f i v i = v := by
  simp [updF]

theorem updF_ne (f : Nat → Nat) (i v j : Nat) (h : j ≠ i) : updF f i v j = f j := by
  simp [updF, h]

theorem countLoop_eq (β : Nat → Nat) (l : List Nat) (b : Nat) :
    countLoop β l b = cntOf β l b := by
  suffices H : ∀ (c0 : Nat → Nat),
      l.foldl (fun c x => updF c (β x) (c (β x) + 1)) c0 b = c0 b + cntOf β l b by
    simpa using H (fun _ => 0)
  induction l with
  | nil => intro c0; simp [cntOf_nil]
  | cons x l ih =>
    intro c0
    rw [List.foldl_cons, ih, cntOf_cons]
    by_cases h : β x = b
    · subst h; rw [updF_self]; simp; omega
    · rw [updF_ne _ _ _ _ (fun hb => h hb.symm)]
      simp [h]

/-! ## Closed forms of the offset tables -/

theorem sumFrom_shift (c : Nat → Nat) (lo k : Nat) :
    sumFrom c lo (k + 1) = c lo + sumFrom c (lo + 1) k := by
  induction k with
  | zero => simp [sumFrom]
  | succ k ih =>
    rw [show k + 1 + 1 = (k + 1) + 1 from rfl, sumFrom, ih, sumFrom]
    have e : lo + (k + 1) = lo + 1 + k := by omega
    rw [e]
    omega

theorem offsetsAsc_eq (c : Nat → Nat) (b : Nat) :
    offsetsAsc c b = sumFrom c 0 b := by
  induction b with
  | zero => rfl
  | succ b ih =>
    rw [offsetsAsc, ih, sumFrom, Nat.zero_add]

theorem offsetsFinalLow_eq (c : Nat → Nat) (b : Nat) :
    offsetsFinalLow c b = sumFrom c 128 128 + sumFrom c 0 b := by
  induction b with
  | zero =>
    show sumFrom c FIRST_NEG_BUCKET (NUM_BUCKETS - FIRST_NEG_BUCKET) = _
    norm_num [FIRST_NEG_BUCKET, NUM_BUCKETS, sumFrom]
  | succ b ih =>
    rw [offsetsFinalLow, ih,
      show sumFrom c 0 (b + 1) = sumFrom c 0 b + c b from by rw [sumFrom, Nat.zero_add]]
    omega

theorem offsetsIntFinalHigh_eq (c : Nat → Nat) (j : Nat) :
    offsetsIntFinalHigh c j = sumFrom c 128 j := by
  induction j with
  | zero => rfl
  | succ j ih =>
    rw [offsetsIntFinalHigh, ih, sumFrom]
    have e : FIRST_NEG_BUCKET = 128 := by norm_num [FIRST_NEG_BUCKET, NUM_BUCKETS]
    rw [e]

theorem offsetsDescF_eq (c : Nat → Nat) (j : Nat) (hj : j ≤ 128) :
    offsetsDescF c j = sumFrom c (256 - j) j := by
  induction j with
  | zero => rfl
  | succ j ih =>
    rw [offsetsDescF, ih (by omega), sumFrom_shift]
    have h1 : 256 - (j + 1) + 1 = 256 - j := by omega
    have h2 : NUM_BUCKETS - 1 - j = 256 - (j + 1) := by
      have : NUM_BUCKETS = 256 := by norm_num [NUM_BUCKETS]
      omega
    rw [h2, ← h1]
    omega

/-! ## The scatter loop places each bucket contiguously

`regLo`/`regHi` delimit the half-open interval of destination slots that the
remaining elements of bucket `b` will occupy; `slotOf` is the slot of the
`k`-th remaining element of bucket `b` (decrement-then-write buckets fill
their interval from the top down). -/

def regLo (isDec : Nat → Bool) (offs : Nat → Nat) (r b : Nat) : Nat :=
  if isDec b then offs b - r else offs b

def regHi (isDec : Nat → Bool) (offs : Nat → Nat) (r b : Nat) : Nat :=
  if isDec b then offs b else offs b + r

def slotOf (isDec : Nat → Bool) (offs : Nat → Nat) (b k : Nat) : Nat :=
  if isDec b then offs b - 1 - k else offs b + k

theorem scatter_spec (β : Nat → Nat) (isDec : Nat → Bool) :
    ∀ (rest dest : List Nat) (offs : Nat → Nat),
    (∀ x ∈ rest, β x < NUM_BUCKETS) →
    (∀ b, 0 < cntOf β rest b → isDec b = true → cntOf β rest b ≤ offs b) →
    (∀ b, 0 < cntOf β rest b → regHi isDec offs (cntOf β rest b) b ≤ dest.length) →
    (∀ b b', b ≠ b' → 0 < cntOf β rest b → 0 < cntOf β rest b' →
        regHi isDec offs (cntOf β rest b) b ≤ regLo isDec offs (cntOf β rest b') b' ∨
        regHi isDec offs (cntOf β rest b') b' ≤ regLo isDec offs (cntOf β rest b) b) →
    ∃ dest', scatter β isDec rest dest offs = some dest' ∧
      dest'.length = dest.length ∧
      (∀ p, (∀ b, 0 < cntOf β rest b →
          p < regLo isDec offs (cntOf β rest b) b ∨
          regHi isDec offs (cntOf β rest b) b ≤ p) →
        dest'[p]? = dest[p]?) ∧
      (∀ b k, k < cntOf β rest b →
        dest'[slotOf isDec offs b k]? = (rest.filter (fun x => β x = b))[k]?) := by
  intro rest
  induction rest with
  | nil =>
    intro dest offs _ _ _ _
    exact ⟨dest, rfl, rfl, fun p _ => rfl,
      fun b k hk => absurd hk (by simp [cntOf_nil])⟩
  | cons x rest ih =>
    intro dest offs Hβ Hdec Hhi Hdisj
    have hb0 : β x < NUM_BUCKETS := Hβ x (List.mem_cons_self x rest)
    have hcnt0 : cntOf β (x :: rest) (β x) = cntOf β rest (β x) + 1 := by
      rw [cntOf_cons]; simp
    have hcntne : ∀ b, b ≠ β x → cntOf β (x :: rest) b = cntOf β rest b := by
      intro b hb
      rw [cntOf_cons, if_neg (fun h => hb h.symm)]
    have cnt0pos : 0 < cntOf β (x :: rest) (β x) := by omega
    have hhi0 := Hhi (β x) cnt0pos
    have hdec0 := Hdec (β x) cnt0pos
    -- the slot written for `x`, and the updated offset entry
    have hregs : regLo isDec offs (cntOf β (x :: rest) (β x)) (β x) ≤
          (if isDec (β x) then offs (β x) - 1 else offs (β x)) ∧
        (if isDec (β x) then offs (β x) - 1 else offs (β x)) <
          regHi isDec offs (cntOf β (x :: rest) (β x)) (β x) := by
      by_cases hD : isDec (β x)
      · have h1 := hdec0 hD
        simp only [regLo, regHi, hD, if_true]
        omega
      · simp only [regLo, regHi, hD, if_false, Bool.false_eq_true]
        omega
    have hslt : (if isDec (β x) then offs (β x) - 1 else offs (β x)) < dest.length := by
      by_cases hD : isDec (β x)
      · have h1 := hdec0 hD
        simp only [regHi, hD, if_true] at hhi0
        simp only [hD, if_true]
        omega
      · simp only [regHi, hD, if_false, Bool.false_eq_true] at hhi0
        simp only [hD, if_false, Bool.false_eq_true]
        omega
    have hstep : scatter β isDec (x :: rest) dest offs =
        scatter β isDec rest
          (dest.set (if isDec (β x) then offs (β x) - 1 else offs (β x)) x)
          (updF offs (β x)
            (if isDec (β x) then offs (β x) - 1 else offs (β x) + 1)) := by
      by_cases hD : isDec (β x)
      · have h1 := hdec0 hD
        have hchk : 0 < offs (β x) ∧ offs (β x) - 1 < dest.length := by
          constructor
          · simp only [regHi, hD, if_true] at hhi0
            omega
          · simpa [hD] using hslt
        simp only [scatter, if_pos hb0, hD, if_true, if_pos hchk]
      · have hchk : offs (β x) < dest.length := by simpa [hD] using hslt
        simp only [scatter, if_pos hb0, hD, Bool.false_eq_true, if_false, if_pos hchk]
    set s0 : Nat := if isDec (β x) then offs (β x) - 1 else offs (β x) with hs0
    set o1 : Nat := if isDec (β x) then offs (β x) - 1 else offs (β x) + 1 with ho1
    set offs1 : Nat → Nat := updF offs (β x) o1 with hoffs1
    set dest1 : List Nat := dest.set s0 x with hdest1
    have hoffs1self : offs1 (β x) = o1 := updF_self _ _ _
    have hoffs1ne : ∀ b, b ≠ β x → offs1 b = offs b := fun b hb => updF_ne _ _ _ _ hb
    -- the remaining region of each nonempty bucket shrinks (or stays put)
    have hshrink : ∀ b, 0 < cntOf β rest b →
        regLo isDec offs (cntOf β (x :: rest) b) b ≤ regLo isDec offs1 (cntOf β rest b) b ∧
        regHi isDec offs1 (cntOf β rest b) b ≤ regHi isDec offs (cntOf β (x :: rest) b) b ∧
        0 < cntOf β (x :: rest) b := by
      intro b hb
      by_cases he : b = β x
      · subst he
        by_cases hD : isDec (β x)
        · have h1 := hdec0 hD
          have e0 : o1 = offs (β x) - 1 := by rw [ho1, if_pos hD]
          simp only [regLo, regHi, hD, if_true, hoffs1self, e0, hcnt0]
          omega
        · have e0 : o1 = offs (β x) + 1 := by rw [ho1, if_neg hD]
          simp only [regLo, regHi, hD, if_false, Bool.false_eq_true, hoffs1self, e0, hcnt0]
          omega
      · refine ⟨?_, ?_, by rw [hcntne b he]; exact hb⟩ <;>
          simp only [regLo, regHi, hcntne b he, hoffs1ne b he] <;> exact le_refl _
    obtain ⟨hreg1, hreg2⟩ := hregs
    have Hβ' : ∀ y ∈ rest, β y < NUM_BUCKETS := fun y hy => Hβ y (List.mem_cons_of_mem x hy)
    have Hdec' : ∀ b, 0 < cntOf β rest b → isDec b = true → cntOf β rest b ≤ offs1 b := by
      intro b hb hD
      by_cases he : b = β x
      · subst he
        have h1 := hdec0 hD
        have e0 : o1 = offs (β x) - 1 := by rw [ho1, if_pos hD]
        rw [hoffs1self, e0]
        omega
      · rw [hoffs1ne b he]
        have h1 := Hdec b (by rw [hcntne b he]; exact hb) hD
        rwa [hcntne b he] at h1
    have Hhi' : ∀ b, 0 < cntOf β rest b →
        regHi isDec offs1 (cntOf β rest b) b ≤ dest1.length := by
      intro b hb
      have h2 := (hshrink b hb).2.1
      have h3 := Hhi b (hshrink b hb).2.2
      rw [hdest1, List.length_set]
      omega
    have Hdisj' : ∀ b b', b ≠ b' → 0 < cntOf β rest b → 0 < cntOf β rest b' →
        regHi isDec offs1 (cntOf β rest b) b ≤ regLo isDec offs1 (cntOf β rest b') b' ∨
        regHi isDec offs1 (cntOf β rest b') b' ≤ regLo isDec offs1 (cntOf β rest b) b := by
      intro b b' hne hb hb'
      have s1 := hshrink b hb
      have s2 := hshrink b' hb'
      rcases Hdisj b b' hne s1.2.2 s2.2.2 with h | h
      · left; omega
      · right; omega
    obtain ⟨dest', hsc, hlen', hout, hslot⟩ := ih dest1 offs1 Hβ' Hdec' Hhi' Hdisj'
    refine ⟨dest', by rw [hstep]; exact hsc,
      by rw [hlen', hdest1, List.length_set], ?_, ?_⟩
    · -- slots outside every remaining bucket interval are untouched
      intro p hp
      have hp0 := hp (β x) cnt0pos
      have hps0 : s0 ≠ p := by omega
      have hp' : ∀ b, 0 < cntOf β rest b →
          p < regLo isDec offs1 (cntOf β rest b) b ∨
          regHi isDec offs1 (cntOf β rest b) b ≤ p := by
        intro b hb
        have s1 := hshrink b hb
        rcases hp b s1.2.2 with h | h
        · left; omega
        · right; omega
      rw [hout p hp', hdest1, List.getElem?_set_ne hps0]
    · -- the k-th remaining element of bucket b lands in slot `slotOf b k`
      intro b k hk
      by_cases he : b = β x
      · subst he
        have hfc : (x :: rest).filter (fun y => β y = β x) =
            x :: rest.filter (fun y => β y = β x) := by
          simp [List.filter_cons]
        cases k with
        | zero =>
          have hslot0 : slotOf isDec offs (β x) 0 = s0 := by
            rw [hs0]
            by_cases hD : isDec (β x) <;> simp [slotOf, hD]
          have hout0 : dest'[s0]? = dest1[s0]? := by
            apply hout
            intro b' hb'
            by_cases he' : b' = β x
            · subst he'
              by_cases hD : isDec (β x)
              · right
                have e0 : o1 = offs (β x) - 1 := by rw [ho1, if_pos hD]
                have e1 : s0 = offs (β x) - 1 := by rw [hs0, if_pos hD]
                simp only [regHi, hD, if_true, hoffs1self, e0, e1]
                omega
              · left
                have e0 : o1 = offs (β x) + 1 := by rw [ho1, if_neg hD]
                have e1 : s0 = offs (β x) := by rw [hs0, if_neg hD]
                simp only [regLo, hD, Bool.false_eq_true, if_false, hoffs1self, e0, e1]
                omega
            · have s2 := hshrink b' hb'
              rcases Hdisj (β x) b' (fun h => he' h.symm) cnt0pos s2.2.2 with h | h
              · left; omega
              · right; omega
          rw [hslot0, hout0, hdest1, List.getElem?_set_self hslt, hfc,
            List.getElem?_cons_zero]
        | succ k =>
          have hk' : k < cntOf β rest (β x) := by omega
          have hshift : slotOf isDec offs (β x) (k + 1) = slotOf isDec offs1 (β x) k := by
            by_cases hD : isDec (β x)
            · have e0 : o1 = offs (β x) - 1 := by rw [ho1, if_pos hD]
              simp only [slotOf, hD, if_true, hoffs1self, e0]
              omega
            · have e0 : o1 = offs (β x) + 1 := by rw [ho1, if_neg hD]
              simp only [slotOf, hD, Bool.false_eq_true, if_false, hoffs1self, e0]
              omega
          rw [hshift, hslot (β x) k hk', hfc, List.getElem?_cons_succ]
      · have hk' : k < cntOf β rest b := by rwa [hcntne b he] at hk
        have hsame : slotOf isDec offs b k = slotOf isDec offs1 b k := by
          simp only [slotOf, hoffs1ne b he]
        have he2 : ¬ β x = b := fun h => he h.symm
        have hfc : (x :: rest).filter (fun y => β y = b) =
            rest.filter (fun y => β y = b) := by
          simp [List.filter_cons, he2]
        rw [hsame, hslot b k hk', hfc]

/-! ## Bucket layouts: start positions along a bucket order -/

/-- Start position of bucket `b`'s interval when buckets are laid out left to
right in the order given by the list (sum of the counts of the buckets
preceding the first occurrence of `b`). -/
def startIn (c : Nat → Nat) : List Nat → Nat → Nat
  | [], _ => 0
  | b' :: rest, b => if b = b' then 0 else c b' + startIn c rest b

/-- Descending list `[a+m-1, …, a+1, a]`. -/
def descRange (a : Nat) : Nat → List Nat
  | 0 => []
  | m + 1 => (a + m) :: descRange a m

theorem startIn_cons_self (c : Nat → Nat) (b : Nat) (order : List Nat) :
    startIn c (b :: order) b = 0 := by
  simp [startIn]

theorem startIn_cons_ne (c : Nat → Nat) (a b : Nat) (order : List Nat) (h : b ≠ a) :
    startIn c (a :: order) b = c a + startIn c order b := by
  simp [startIn, h]

theorem cntOf_pos_iff (β : Nat → Nat) (l : List Nat) (b : Nat) :
    0 < cntOf β l b ↔ ∃ x ∈ l, β x = b := by
  rw [cntOf, List.length_pos_iff_exists_mem]
  constructor
  · rintro ⟨x, hx⟩
    rw [List.mem_filter] at hx
    exact ⟨x, hx.1, by simpa using hx.2⟩
  · rintro ⟨x, hx, hb⟩
    exact ⟨x, List.mem_filter.mpr ⟨hx, by simpa using hb⟩⟩

/-- With every element covered by `order` and no duplicate buckets, the bucket
counts add up to the length of the list. -/
theorem sum_map_cntOf (β : Nat → Nat) :
    ∀ (order : List Nat) (l : List Nat), order.Nodup →
    (∀ x ∈ l, β x ∈ order) → (order.map (cntOf β l)).sum = l.length := by
  intro order
  induction order with
  | nil =>
    intro l _ hcov
    have : l = [] := List.eq_nil_iff_forall_not_mem.mpr fun x hx => by
      simpa using hcov x hx
    simp [this]
  | cons b order ih =>
    intro l hnd hcov
    have hnd' : order.Nodup := hnd.of_cons
    have hbmem : b ∉ order := by
      intro hb
      exact (List.nodup_cons.mp hnd).1 hb
    have hsplit :
        (l.filter (fun x => β x = b)).length +
          (l.filter (fun x => ¬ (β x = b))).length = l.length := by
      have := (List.filter_append_perm (fun x => decide (β x = b)) l).length_eq
      simpa using this
    have hcov' : ∀ x ∈ l.filter (fun x => ¬ (β x = b)), β x ∈ order := by
      intro x hx
      rw [List.mem_filter] at hx
      have h1 := hcov x hx.1
      have h2 : ¬ (β x = b) := by simpa using hx.2
      rcases List.mem_cons.mp h1 with h | h
      · exact absurd h h2
      · exact h
    have hcnt : ∀ b' ∈ order,
        cntOf β l b' = cntOf β (l.filter (fun x => ¬ (β x = b))) b' := by
      intro b' hb'
      have hne : b' ≠ b := fun h => hbmem (h ▸ hb')
      rw [cntOf, cntOf, List.filter_filter]
      congr 1
      apply List.filter_congr
      intro x _
      by_cases h : β x = b'
      · have : ¬ (β x = b) := fun hb => hne (by rw [← h, hb])
        simp [h, this, hne]
      · simp [h]
    rw [List.map_cons, List.sum_cons,
      List.map_congr_left (fun b' hb' => hcnt b' hb'),
      ih (l.filter (fun x => ¬ (β x = b))) hnd' hcov']
    exact hsplit

theorem startIn_add_le (c : Nat → Nat) :
    ∀ (order : List Nat) (b : Nat), b ∈ order →
    startIn c order b + c b ≤ (order.map c).sum := by
  intro order
  induction order with
  | nil => intro b hb; simp at hb
  | cons a order ih =>
    intro b hb
    by_cases he : b = a
    · subst he
      rw [startIn_cons_self]
      simp
    · rcases List.mem_cons.mp hb with h | h
      · exact absurd h he
      · have := ih b h
        rw [startIn_cons_ne c a b order he, List.map_cons, List.sum_cons]
        omega

theorem startIn_disj (c : Nat → Nat) :
    ∀ (order : List Nat) (b b' : Nat), b ≠ b' → b ∈ order → b' ∈ order →
    startIn c order b + c b ≤ startIn c order b' ∨
    startIn c order b' + c b' ≤ startIn c order b := by
  intro order
  induction order with
  | nil => intro b b' _ hb; simp at hb
  | cons a order ih =>
    intro b b' hne hb hb'
    by_cases he : b = a
    · subst he
      have he' : ¬ b' = b := fun h => hne h.symm
      left
      rw [startIn_cons_self, startIn_cons_ne c b b' order he']
      omega
    · by_cases he' : b' = a
      · subst he'
        right
        rw [startIn_cons_self, startIn_cons_ne c b' b order he]
        omega
      · have hbmem : b ∈ order := by
          rcases List.mem_cons.mp hb with h | h
          · exact absurd h he
          · exact h
        have hb'mem : b' ∈ order := by
          rcases List.mem_cons.mp hb' with h | h
          · exact absurd h he'
          · exact h
        rw [startIn_cons_ne c a b order he, startIn_cons_ne c a b' order he']
        rcases ih b b' hne hbmem hb'mem with h | h
        · left; omega
        · right; omega

/-- A scatter whose offsets are the layout start positions (plus the bucket
count, for decrement-then-write buckets) produces the buckets laid out in
`order`, decrement buckets reversed. -/
theorem scatter_blocks (β : Nat → Nat) (isDec : Nat → Bool) (order : List Nat)
    (l dest : List Nat) (offs : Nat → Nat)
    (hnd : order.Nodup)
    (hcov : ∀ x ∈ l, β x ∈ order)
    (hord : ∀ b ∈ order, b < NUM_BUCKETS)
    (hlen : dest.length = l.length)
    (hoffs : ∀ b ∈ order, offs b =
      startIn (cntOf β l) order b + (if isDec b then cntOf β l b else 0)) :
    scatter β isDec l dest offs =
      some ((order.map (fun b =>
        if isDec b then (l.filter (fun x => β x = b)).reverse
        else l.filter (fun x => β x = b))).flatten) := by
  have hposmem : ∀ b, 0 < cntOf β l b → b ∈ order := by
    intro b hb
    rcases (cntOf_pos_iff β l b).mp hb with ⟨x, hx, hbx⟩
    exact hbx ▸ hcov x hx
  have hreg : ∀ b, 0 < cntOf β l b →
      regLo isDec offs (cntOf β l b) b = startIn (cntOf β l) order b ∧
      regHi isDec offs (cntOf β l b) b = startIn (cntOf β l) order b + cntOf β l b := by
    intro b hb
    have h1 := hoffs b (hposmem b hb)
    by_cases hD : isDec b
    · rw [if_pos hD] at h1
      exact ⟨by rw [regLo, if_pos hD, h1]; omega, by rw [regHi, if_pos hD, h1]⟩
    · rw [if_neg hD] at h1
      exact ⟨by rw [regLo, if_neg hD, h1]; omega, by rw [regHi, if_neg hD, h1]; omega⟩
  have hsum := sum_map_cntOf β order l hnd hcov
  obtain ⟨dest', hsc, hlen', hout, hslot⟩ :=
    scatter_spec β isDec l dest offs
      (fun x hx => hord (β x) (hcov x hx))
      (fun b hb hD => by
        have h1 := hoffs b (hposmem b hb)
        rw [if_pos hD] at h1
        omega)
      (fun b hb => by
        rw [(hreg b hb).2, hlen]
        calc startIn (cntOf β l) order b + cntOf β l b
            ≤ (order.map (cntOf β l)).sum := startIn_add_le _ order b (hposmem b hb)
          _ = l.length := hsum)
      (fun b b' hne hb hb' => by
        rw [(hreg b hb).1, (hreg b hb).2, (hreg b' hb').1, (hreg b' hb').2]
        exact startIn_disj _ order b b' hne (hposmem b hb) (hposmem b' hb'))
  have hJlen : ∀ (sub : List Nat),
      ((sub.map (fun b => if isDec b then (l.filter (fun x => β x = b)).reverse
        else l.filter (fun x => β x = b))).flatten).length =
        (sub.map (cntOf β l)).sum := by
    intro sub
    rw [List.length_flatten, List.map_map]
    congr 1
    apply List.map_congr_left
    intro b _
    by_cases hD : isDec b <;> simp [hD, cntOf]
  have main : ∀ (sub : List Nat), sub.Nodup → (∀ b ∈ sub, b ∈ order) →
      ∀ (t : Nat),
      (∀ b ∈ sub, startIn (cntOf β l) order b = t + startIn (cntOf β l) sub b) →
      ∀ p, p < (sub.map (cntOf β l)).sum →
      dest'[t + p]? = ((sub.map (fun b =>
        if isDec b then (l.filter (fun x => β x = b)).reverse
        else l.filter (fun x => β x = b))).flatten)[p]? := by
    intro sub
    induction sub with
    | nil => intro _ _ t _ p hp; simp at hp
    | cons b sub ih =>
      intro hnd2 hmem2 t hst p hp
      have hndb : b ∉ sub := (List.nodup_cons.mp hnd2).1
      have hstb : startIn (cntOf β l) order b = t := by
        have h1 := hst b (List.mem_cons_self b sub)
        rwa [startIn_cons_self, Nat.add_zero] at h1
      rw [List.map_cons, List.flatten_cons, List.getElem?_append]
      have hblen : (if isDec b then (l.filter (fun x => β x = b)).reverse
          else l.filter (fun x => β x = b)).length = cntOf β l b := by
        by_cases hD : isDec b <;> simp [hD, cntOf]
      rw [hblen]
      by_cases hpc : p < cntOf β l b
      · rw [if_pos hpc]
        have hbpos : 0 < cntOf β l b := by omega
        by_cases hD : isDec b
        · have hk : cntOf β l b - 1 - p < cntOf β l b := by omega
          have h1 := hslot b (cntOf β l b - 1 - p) hk
          have h2 : slotOf isDec offs b (cntOf β l b - 1 - p) = t + p := by
            have h3 := hoffs b (hposmem b hbpos)
            rw [if_pos hD] at h3
            rw [slotOf, if_pos hD, h3, hstb]
            omega
          rw [h2] at h1
          rw [h1, if_pos hD, List.getElem?_reverse (by exact hpc)]
          have h4 : (l.filter (fun x => β x = b)).length = cntOf β l b := rfl
          rw [h4]
        · have h1 := hslot b p hpc
          have h2 : slotOf isDec offs b p = t + p := by
            have h3 := hoffs b (hposmem b hbpos)
            rw [if_neg hD] at h3
            rw [slotOf, if_neg hD, h3, hstb]
            omega
          rw [h2] at h1
          rw [h1, if_neg hD]
      · rw [if_neg hpc]
        have hst' : ∀ b' ∈ sub, startIn (cntOf β l) order b' =
            (t + cntOf β l b) + startIn (cntOf β l) sub b' := by
          intro b' hb'
          have hne : b' ≠ b := fun h => hndb (h ▸ hb')
          have h1 := hst b' (List.mem_cons_of_mem b hb')
          rwa [startIn_cons_ne _ b b' sub hne, ← Nat.add_assoc] at h1
        have hp' : p - cntOf β l b < (sub.map (cntOf β l)).sum := by
          rw [List.map_cons, List.sum_cons] at hp
          omega
        have h5 := ih hnd2.of_cons
          (fun b' hb' => hmem2 b' (List.mem_cons_of_mem b hb'))
          (t + cntOf β l b) hst' (p - cntOf β l b) hp'
        rw [← h5]
        congr 1
        omega
  rw [hsc]
  congr 1
  apply List.ext_getElem?
  intro n
  by_cases hn : n < l.length
  · have h0 := main order hnd (fun b hb => hb) 0
      (fun b _ => by rw [Nat.zero_add]) n (by rw [hsum]; exact hn)
    simpa using h0
  · have h1 : dest'[n]? = none :=
      List.getElem?_eq_none (by rw [hlen', hlen]; omega)
    rw [h1]
    exact (List.getElem?_eq_none (by rw [hJlen order, hsum]; omega)).symm

/-! ## Start positions along concrete bucket orders -/

theorem startIn_range' (c : Nat → Nat) :
    ∀ (m a b : Nat), a ≤ b → b < a + m →
    startIn c (List.range' a m) b = sumFrom c a (b - a) := by
  intro m
  induction m with
  | zero => intro a b h1 h2; omega
  | succ m ih =>
    intro a b h1 h2
    rw [List.range'_succ]
    by_cases he : b = a
    · subst he
      rw [startIn_cons_self]
      simp [sumFrom]
    · rw [startIn_cons_ne c a b _ he, ih (a + 1) b (by omega) (by omega)]
      have e : b - a = (b - (a + 1)) + 1 := by omega
      rw [e, sumFrom_shift]

theorem sum_map_range' (c : Nat → Nat) :
    ∀ (m a : Nat), ((List.range' a m).map c).sum = sumFrom c a m := by
  intro m
  induction m with
  | zero => intro a; rfl
  | succ m ih =>
    intro a
    rw [List.range'_succ, List.map_cons, List.sum_cons, ih (a + 1)]
    exact (sumFrom_shift c a m).symm

theorem mem_descRange (a : Nat) :
    ∀ (m b : Nat), b ∈ descRange a m ↔ a ≤ b ∧ b < a + m := by
  intro m
  induction m with
  | zero => intro b; simp [descRange]
  | succ m ih =>
    intro b
    rw [descRange, List.mem_cons, ih b]
    constructor
    · rintro (h | h) <;> omega
    · intro h
      by_cases he : b = a + m
      · exact Or.inl he
      · exact Or.inr (by omega)

theorem nodup_descRange (a : Nat) : ∀ m, (descRange a m).Nodup := by
  intro m
  induction m with
  | zero => simp [descRange]
  | succ m ih =>
    rw [descRange, List.nodup_cons]
    refine ⟨?_, ih⟩
    rw [mem_descRange]
    omega

theorem startIn_descRange (c : Nat → Nat) (a : Nat) :
    ∀ (m b : Nat), a ≤ b → b < a + m →
    startIn c (descRange a m) b = sumFrom c (b + 1) (a + m - 1 - b) := by
  intro m
  induction m with
  | zero => intro b h1 h2; omega
  | succ m ih =>
    intro b h1 h2
    rw [descRange]
    by_cases he : b = a + m
    · subst he
      rw [startIn_cons_self]
      have e : a + (m + 1) - 1 - (a + m) = 0 := by omega
      rw [e]
      rfl
    · rw [startIn_cons_ne c (a + m) b _ he, ih b h1 (by omega)]
      have e1 : a + (m + 1) - 1 - b = (a + m - 1 - b) + 1 := by omega
      rw [e1, sumFrom]
      have e2 : b + 1 + (a + m - 1 - b) = a + m := by omega
      rw [e2]
      omega

theorem sum_map_descRange (c : Nat → Nat) (a : Nat) :
    ∀ m, ((descRange a m).map c).sum = sumFrom c a m := by
  intro m
  induction m with
  | zero => rfl
  | succ m ih =>
    rw [descRange, List.map_cons, List.sum_cons, ih, sumFrom]
    omega

theorem startIn_append_left (c : Nat → Nat) :
    ∀ (A B : List Nat) (b : Nat), b ∈ A → startIn c (A ++ B) b = startIn c A b := by
  intro A
  induction A with
  | nil => intro B b hb; simp at hb
  | cons a A ih =>
    intro B b hb
    by_cases he : b = a
    · subst he
      rw [List.cons_append, startIn_cons_self, startIn_cons_self]
    · have hmem : b ∈ A := by
        rcases List.mem_cons.mp hb with h | h
        · exact absurd h he
        · exact h
      rw [List.cons_append, startIn_cons_ne c a b _ he, startIn_cons_ne c a b _ he,
        ih B b hmem]

theorem startIn_append_right (c : Nat → Nat) :
    ∀ (A B : List Nat) (b : Nat), b ∉ A →
    startIn c (A ++ B) b = (A.map c).sum + startIn c B b := by
  intro A
  induction A with
  | nil => intro B b _; simp [startIn]
  | cons a A ih =>
    intro B b hb
    have he : b ≠ a := fun h => hb (h ▸ List.mem_cons_self a A)
    have hb' : b ∉ A := fun h => hb (List.mem_cons_of_mem a h)
    rw [List.cons_append, startIn_cons_ne c a b _ he, ih B b hb',
      List.map_cons, List.sum_cons]
    omega

/-! ## The three pass shapes

Every non-final pass, and the integer engine's final pass, is an
increment-after-write scatter over a bucket order; the float engine's final
pass additionally reverses each negative bucket. -/

theorem scatter_asc (β : Nat → Nat) (isDec : Nat → Bool) (l : List Nat)
    (hβ : ∀ x, β x < NUM_BUCKETS) (hdec : ∀ b, isDec b = false) :
    scatter β isDec l l (offsetsAsc (countLoop β l)) =
      some (((List.range' 0 NUM_BUCKETS).map
        (fun b => l.filter (fun x => β x = b))).flatten) := by
  have hc : countLoop β l = cntOf β l := funext (countLoop_eq β l)
  rw [hc]
  have h := scatter_blocks β isDec (List.range' 0 NUM_BUCKETS) l l
    (offsetsAsc (cntOf β l))
    (List.nodup_range' 0 NUM_BUCKETS)
    (fun x _ => List.mem_range'_1.mpr ⟨Nat.zero_le _, by simpa using hβ x⟩)
    (fun b hb => by simpa using (List.mem_range'_1.mp hb).2)
    rfl
    (fun b hb => by
      rcases List.mem_range'_1.mp hb with ⟨_, hb2⟩
      rw [offsetsAsc_eq, hdec b]
      simp only [Bool.false_eq_true, if_false, Nat.add_zero]
      rw [startIn_range' (cntOf β l) NUM_BUCKETS 0 b (Nat.zero_le b)
        (by simpa using hb2), Nat.sub_zero])
  rw [h]
  have hmap : (List.range' 0 NUM_BUCKETS).map (fun b =>
      if isDec b then (l.filter (fun x => β x = b)).reverse
      else l.filter (fun x => β x = b)) =
    (List.range' 0 NUM_BUCKETS).map (fun b => l.filter (fun x => β x = b)) := by
    apply List.map_congr_left
    intro b _
    rw [hdec b]
    simp
  rw [hmap]

theorem scatter_int_final (β : Nat → Nat) (isDec : Nat → Bool) (l : List Nat)
    (hβ : ∀ x, β x < NUM_BUCKETS) (hdec : ∀ b, isDec b = false) :
    scatter β isDec l l (offsetsIntFinal (countLoop β l)) =
      some (((List.range' 128 128 ++ List.range' 0 128).map
        (fun b => l.filter (fun x => β x = b))).flatten) := by
  have hN : NUM_BUCKETS = 256 := rfl
  have hF : FIRST_NEG_BUCKET = 128 := rfl
  have hc : countLoop β l = cntOf β l := funext (countLoop_eq β l)
  rw [hc]
  have hnd : (List.range' 128 128 ++ List.range' 0 128).Nodup := by
    refine (List.nodup_range' _ _).append (List.nodup_range' _ _) ?_
    rw [List.disjoint_left]
    intro b hb1 hb2
    rw [List.mem_range'_1] at hb1 hb2
    omega
  have hcov : ∀ x ∈ l, β x ∈ List.range' 128 128 ++ List.range' 0 128 := by
    intro x _
    have h1 := hβ x
    rw [List.mem_append, List.mem_range'_1, List.mem_range'_1]
    omega
  have hord : ∀ b ∈ List.range' 128 128 ++ List.range' 0 128, b < NUM_BUCKETS := by
    intro b hb
    rcases List.mem_append.mp hb with h | h <;>
      (rw [List.mem_range'_1] at h; omega)
  have hoffs : ∀ b ∈ List.range' 128 128 ++ List.range' 0 128,
      offsetsIntFinal (cntOf β l) b =
        startIn (cntOf β l) (List.range' 128 128 ++ List.range' 0 128) b +
          (if isDec b then cntOf β l b else 0) := by
    intro b hb
    rw [hdec b]
    simp only [Bool.false_eq_true, if_false, Nat.add_zero]
    rcases List.mem_append.mp hb with h | h
    · have h1 := List.mem_range'_1.mp h
      rw [startIn_append_left _ _ _ b h,
        startIn_range' (cntOf β l) 128 128 b h1.1 h1.2,
        offsetsIntFinal, if_neg (by omega), hF, offsetsIntFinalHigh_eq]
    · have h1 := List.mem_range'_1.mp h
      have hnm : b ∉ List.range' 128 128 := by
        rw [List.mem_range'_1]; omega
      rw [startIn_append_right _ _ _ b hnm, sum_map_range',
        startIn_range' (cntOf β l) 128 0 b (by omega) (by omega), Nat.sub_zero,
        offsetsIntFinal, if_pos (by omega), offsetsFinalLow_eq]
  have h := scatter_blocks β isDec (List.range' 128 128 ++ List.range' 0 128)
    l l (offsetsIntFinal (cntOf β l)) hnd hcov hord rfl hoffs
  rw [h]
  have hmap : (List.range' 128 128 ++ List.range' 0 128).map (fun b =>
      if isDec b then (l.filter (fun x => β x = b)).reverse
      else l.filter (fun x => β x = b)) =
    (List.range' 128 128 ++ List.range' 0 128).map
      (fun b => l.filter (fun x => β x = b)) := by
    apply List.map_congr_left
    intro b _
    rw [hdec b]
    simp
  rw [hmap]

theorem scatter_float_final (β : Nat → Nat) (isDec : Nat → Bool) (l : List Nat)
    (hβ : ∀ x, β x < NUM_BUCKETS)
    (hdec : ∀ b, isDec b = decide (FIRST_NEG_BUCKET ≤ b)) :
    scatter β isDec l l (offsetsFloatFinal (countLoop β l)) =
      some (((descRange 128 128).map
          (fun b => (l.filter (fun x => β x = b)).reverse) ++
        (List.range' 0 128).map (fun b => l.filter (fun x => β x = b))).flatten) := by
  have hN : NUM_BUCKETS = 256 := rfl
  have hF : FIRST_NEG_BUCKET = 128 := rfl
  have hc : countLoop β l = cntOf β l := funext (countLoop_eq β l)
  rw [hc]
  have hnd : (descRange 128 128 ++ List.range' 0 128).Nodup := by
    refine (nodup_descRange 128 128).append (List.nodup_range' _ _) ?_
    rw [List.disjoint_left]
    intro b hb1 hb2
    rw [mem_descRange] at hb1
    rw [List.mem_range'_1] at hb2
    omega
  have hcov : ∀ x ∈ l, β x ∈ descRange 128 128 ++ List.range' 0 128 := by
    intro x _
    have h1 := hβ x
    rw [List.mem_append, mem_descRange, List.mem_range'_1]
    omega
  have hord : ∀ b ∈ descRange 128 128 ++ List.range' 0 128, b < NUM_BUCKETS := by
    intro b hb
    rcases List.mem_append.mp hb with h | h
    · rw [mem_descRange] at h; omega
    · rw [List.mem_range'_1] at h; omega
  have hoffs : ∀ b ∈ descRange 128 128 ++ List.range' 0 128,
      offsetsFloatFinal (cntOf β l) b =
        startIn (cntOf β l) (descRange 128 128 ++ List.range' 0 128) b +
          (if isDec b then cntOf β l b else 0) := by
    intro b hb
    rw [hdec b]
    rcases List.mem_append.mp hb with h | h
    · have h1 := (mem_descRange 128 128 b).mp h
      have hdeq : decide (FIRST_NEG_BUCKET ≤ b) = true :=
        decide_eq_true (by omega)
      rw [hdeq, if_pos rfl,
        startIn_append_left _ _ _ b h,
        startIn_descRange (cntOf β l) 128 128 b h1.1 h1.2,
        offsetsFloatFinal, if_neg (by omega), offsetsFloatPre]
      have e1 : 128 + 128 - 1 - b = 255 - b := by omega
      have e2 : NUM_BUCKETS - 1 - b = 255 - b := by omega
      rw [e1, e2, offsetsDescF_eq (cntOf β l) (255 - b) (by omega)]
      have e3 : 256 - (255 - b) = b + 1 := by omega
      rw [e3]
    · have h1 := List.mem_range'_1.mp h
      have hdeq : decide (FIRST_NEG_BUCKET ≤ b) = false :=
        decide_eq_false (by omega)
      have hnm : b ∉ descRange 128 128 := by
        rw [mem_descRange]; omega
      rw [hdeq]
      simp only [Bool.false_eq_true, if_false, Nat.add_zero]
      rw [startIn_append_right _ _ _ b hnm, sum_map_descRange,
        startIn_range' (cntOf β l) 128 0 b (by omega) (by omega), Nat.sub_zero,
        offsetsFloatFinal, if_pos (by omega), offsetsFinalLow_eq]
  have h := scatter_blocks β isDec (descRange 128 128 ++ List.range' 0 128)
    l l (offsetsFloatFinal (cntOf β l)) hnd hcov hord rfl hoffs
  rw [h, List.map_append]
  have hmap1 : (descRange 128 128).map (fun b =>
      if isDec b then (l.filter (fun x => β x = b)).reverse
      else l.filter (fun x => β x = b)) =
    (descRange 128 128).map (fun b => (l.filter (fun x => β x = b)).reverse) := by
    apply List.map_congr_left
    intro b hb
    have h1 := (mem_descRange 128 128 b).mp hb
    rw [hdec b, decide_eq_true (show FIRST_NEG_BUCKET ≤ b by omega), if_pos rfl]
  have hmap2 : (List.range' 0 128).map (fun b =>
      if isDec b then (l.filter (fun x => β x = b)).reverse
      else l.filter (fun x => β x = b)) =
    (List.range' 0 128).map (fun b => l.filter (fun x => β x = b)) := by
    apply List.map_congr_left
    intro b hb
    have h1 := List.mem_range'_1.mp hb
    rw [hdec b, decide_eq_false (show ¬ FIRST_NEG_BUCKET ≤ b by omega)]
    simp
  rw [hmap1, hmap2]

/-! ## The passes of the two engines, as bucket layouts -/

theorem intPass_nonfinal (w s : Nat) (l : List Nat) :
    intPass w s false l = some (((List.range' 0 NUM_BUCKETS).map
      (fun b => l.filter (fun x => toRadix w x s = b))).flatten) :=
  scatter_asc _ _ l (fun x => toRadix_lt_numBuckets w x s) (fun _ => rfl)

theorem floatPass_nonfinal (w s : Nat) (l : List Nat) :
    floatPass w s false l = some (((List.range' 0 NUM_BUCKETS).map
      (fun b => l.filter (fun x => toRadix w x s = b))).flatten) :=
  scatter_asc _ _ l (fun x => toRadix_lt_numBuckets w x s) (fun _ => rfl)

theorem intPass_final (w s : Nat) (l : List Nat) :
    intPass w s true l =
      some (((List.range' 128 128 ++ List.range' 0 128).map
        (fun b => l.filter (fun x => toRadix w x s = b))).flatten) :=
  scatter_int_final _ _ l (fun x => toRadix_lt_numBuckets w x s) (fun _ => rfl)

theorem floatPass_final (w s : Nat) (l : List Nat) :
    floatPass w s true l =
      some (((descRange 128 128).map
          (fun b => (l.filter (fun x => toRadix w x s = b)).reverse) ++
        (List.range' 0 128).map
          (fun b => l.filter (fun x => toRadix w x s = b))).flatten) :=
  scatter_float_final _ _ l (fun x => toRadix_lt_numBuckets w x s) (fun _ => rfl)

/-! ## Algebra of stable bucket groupings -/

theorem blocksOf_append (key : Nat → Nat) (A B l : List Nat) :
    blocksOf key (A ++ B) l = blocksOf key A l ++ blocksOf key B l := by
  rw [blocksOf, blocksOf, blocksOf, List.map_append, List.flatten_append]

theorem blocksOf_congr (key1 key2 : Nat → Nat) (order l : List Nat)
    (h : ∀ x ∈ l, key1 x = key2 x) :
    blocksOf key1 order l = blocksOf key2 order l := by
  rw [blocksOf, blocksOf]
  congr 1
  apply List.map_congr_left
  intro u _
  apply List.filter_congr
  intro x hx
  rw [h x hx]

theorem filter_blocksOf (q : Nat → Bool) (key : Nat → Nat) (order l : List Nat) :
    (blocksOf key order l).filter q = blocksOf key order (l.filter q) := by
  rw [blocksOf, blocksOf, List.filter_flatten, List.map_map]
  congr 1
  apply List.map_congr_left
  intro u _
  exact List.filter_comm q _ l

theorem mul_add_eq_iff (K a r b v : Nat) (hK : 0 < K) (hr : r < K) (hv : v < K) :
    a * K + r = b * K + v ↔ a = b ∧ r = v := by
  constructor
  · intro h
    have h1 : (a * K + r) % K = (b * K + v) % K := by rw [h]
    rw [Nat.mul_comm a K, Nat.mul_comm b K, Nat.mul_add_mod, Nat.mul_add_mod,
      Nat.mod_eq_of_lt hr, Nat.mod_eq_of_lt hv] at h1
    have h2 : (a * K + r) / K = (b * K + v) / K := by rw [h]
    rw [Nat.mul_comm a K, Nat.mul_comm b K, Nat.mul_add_div hK, Nat.mul_add_div hK,
      Nat.div_eq_of_lt hr, Nat.div_eq_of_lt hv] at h2
    exact ⟨by omega, h1⟩
  · rintro ⟨rfl, rfl⟩
    rfl

/-- One bucket of a byte-refined grouping: the elements of `l` whose byte is
`b`, still grouped by the finer key. -/
theorem filter_blocksOf_byte (β key : Nat → Nat) (K : Nat) (hK : 0 < K)
    (l : List Nat) (hkey : ∀ x, key x < K) (b : Nat) :
    (blocksOf key (List.range' 0 K) l).filter (fun x => β x = b) =
      ((List.range' 0 K).map
        (fun v => l.filter (fun x => β x * K + key x = b * K + v))).flatten := by
  rw [filter_blocksOf, blocksOf]
  congr 1
  apply List.map_congr_left
  intro v hv
  rcases List.mem_range'_1.mp hv with ⟨_, hv2⟩
  rw [List.filter_filter]
  apply List.filter_congr
  intro x _
  rw [← Bool.decide_and, decide_eq_decide,
    mul_add_eq_iff K (β x) (key x) b v hK (hkey x) (by omega)]
  exact and_comm

/-- Grouping an already-grouped list by a coarser byte refines into grouping
by the combined key, the bucket order being the lexicographic product. -/
theorem blocksOf_cascade (β key : Nat → Nat) (K : Nat) (hK : 0 < K)
    (order l : List Nat) (hkey : ∀ x, key x < K) :
    ((order.map (fun b =>
        (blocksOf key (List.range' 0 K) l).filter (fun x => β x = b))).flatten) =
      blocksOf (fun x => β x * K + key x)
        (order.flatMap (fun b => (List.range' 0 K).map (fun v => b * K + v))) l := by
  rw [List.map_congr_left (fun b _ => filter_blocksOf_byte β key K hK l hkey b),
    blocksOf, List.map_flatMap]
  simp only [List.map_map]
  rw [List.flatMap_def, List.flatten_flatten, List.map_map]
  rfl

/-! ## Products of bucket ranges -/

theorem range'_zero_map_add (t K : Nat) :
    (List.range' 0 K).map (fun v => t + v) = List.range' t K := by
  rw [List.range'_eq_map_range, List.range'_eq_map_range, List.map_map]
  apply List.map_congr_left
  intro v _
  simp

theorem range'_mul_flatMap (K : Nat) :
    ∀ (M a : Nat),
    (List.range' a M).flatMap (fun b => (List.range' 0 K).map (fun v => b * K + v)) =
      List.range' (a * K) (M * K) := by
  intro M
  induction M with
  | zero => intro a; simp [List.range']
  | succ M ih =>
    intro a
    rw [List.range'_succ, List.flatMap_cons, ih (a + 1)]
    have h1 : (List.range' 0 K).map (fun v => a * K + v) = List.range' (a * K) K :=
      range'_zero_map_add (a * K) K
    have h2 : (a + 1) * K = a * K + 1 * K := by ring
    have h3 : (M + 1) * K = M * K + K := by ring
    rw [h1, h2, h3, List.range'_append]

theorem descRange_add (s : Nat) : ∀ (k n : Nat),
    descRange s (n + k) = (descRange 0 k).map (fun v => s + n + v) ++ descRange s n := by
  intro k
  induction k with
  | zero => intro n; simp [descRange]
  | succ k ih =>
    intro n
    rw [show n + (k + 1) = (n + k) + 1 from rfl, descRange, ih n, descRange,
      List.map_cons, List.cons_append]
    exact List.cons_eq_cons.mpr ⟨by omega, rfl⟩

theorem descRange_mul_flatMap (K : Nat) (M a : Nat) :
    (descRange a M).flatMap (fun b => (descRange 0 K).map (fun v => b * K + v)) =
      descRange (a * K) (M * K) := by
  induction M with
  | zero => simp [descRange]
  | succ M ih =>
    rw [descRange, List.flatMap_cons, ih,
      show (M + 1) * K = M * K + K from by ring, descRange_add (a * K) K (M * K)]
    congr 1
    apply List.map_congr_left
    intro v _
    ring

theorem descRange_eq_map (a : Nat) :
    ∀ m, descRange a m = (List.range' 0 m).map (fun u => a + m - 1 - u) := by
  intro m
  induction m with
  | zero => simp [descRange, List.range']
  | succ m ih =>
    rw [descRange, ih, List.range'_succ, List.map_cons]
    have hh : a + (m + 1) - 1 - 0 = a + m := by omega
    rw [hh]
    congr 1
    have h1 : List.range' 1 m = (List.range' 0 m).map (fun v => 1 + v) :=
      (range'_zero_map_add 1 m).symm
    rw [h1, List.map_map]
    apply List.map_congr_left
    intro u _
    simp only [Function.comp]
    omega

/-- A block of elements that are all equal to `u` is its own reverse. -/
theorem filter_eq_self_reverse (l : List Nat) (u : Nat) :
    (l.filter (fun x => x = u)).reverse = l.filter (fun x => x = u) := by
  have h : ∀ b ∈ l.filter (fun x => x = u), b = u := by
    intro b hb
    rw [List.mem_filter] at hb
    simpa using hb.2
  rw [List.eq_replicate_of_mem h, List.reverse_replicate]

/-! ## Recomposing a byte with the bits below it -/

theorem byte_recompose (w s x : Nat) (h : s + 8 ≤ w) :
    toRadix w x s * 2 ^ s + x % 2 ^ s = x % 2 ^ (s + 8) := by
  rw [toRadix_eq w x s h]
  have e : (2 : Nat) ^ (s + 8) = 2 ^ s * 256 := by
    rw [pow_add]
    norm_num
  rw [e, @Nat.mod_mul (2 ^ s) 256 x]
  ring

theorem blocksOf_mod_one (l : List Nat) :
    blocksOf (fun x => x % 2 ^ (8 * 0)) (List.range' 0 (2 ^ (8 * 0))) l = l := by
  norm_num [blocksOf, List.range'_one, Nat.mod_one]

theorem reverse_range' (a : Nat) :
    ∀ m, (List.range' a m).reverse = descRange a m := by
  intro m
  induction m with
  | zero => rfl
  | succ m ih =>
    rw [List.range'_concat, List.reverse_append, descRange, ← ih]
    simp

/-- A bucket of a byte-refined grouping, reversed: when the combined key is
the identity (each finest block is a run of equal values), the reversal turns
into a descending traversal of the finer blocks. -/
theorem rev_filter_blocksOf_byte (β key : Nat → Nat) (K : Nat) (hK : 0 < K)
    (l : List Nat) (hkey : ∀ x, key x < K)
    (hid : ∀ x ∈ l, β x * K + key x = x) (b : Nat) :
    ((blocksOf key (List.range' 0 K) l).filter (fun x => β x = b)).reverse =
      ((descRange 0 K).map (fun v => l.filter (fun x => x = b * K + v))).flatten := by
  rw [filter_blocksOf_byte β key K hK l hkey b, List.reverse_flatten, List.map_map,
    ← List.map_reverse, reverse_range']
  congr 1
  apply List.map_congr_left
  intro v _
  show (l.filter (fun x => β x * K + key x = b * K + v)).reverse = _
  rw [List.filter_congr (fun x hx => by rw [hid x hx])]
  exact filter_eq_self_reverse l (b * K + v)

/-! ## Reindexing the final-pass layouts by the two sign-corrected keys -/

theorem blocksOf_rotate (H : Nat) (l : List Nat)
    (hl : ∀ x ∈ l, x < 2 * H) :
    blocksOf (fun x => x) (List.range' H H ++ List.range' 0 H) l =
      blocksOf (fun x => (x + H) % (2 * H)) (List.range' 0 (2 * H)) l := by
  have hmod : ∀ x, x < 2 * H → (x + H) % (2 * H) = if x < H then x + H else x - H := by
    intro x hx
    by_cases hxH : x < H
    · rw [if_pos hxH, Nat.mod_eq_of_lt (by omega)]
    · rw [if_neg hxH, Nat.mod_eq_sub_mod (by omega),
        show x + H - 2 * H = x - H from by omega, Nat.mod_eq_of_lt (by omega)]
  have hsplit : List.range' 0 (2 * H) = List.range' 0 H ++ List.range' H H := by
    have h1 := List.range'_append 0 H H 1
    rw [show 0 + 1 * H = H from by ring] at h1
    rw [show 2 * H = H + H from by ring]
    exact h1.symm
  rw [hsplit, blocksOf_append, blocksOf_append]
  have hpart1 : blocksOf (fun x => x) (List.range' H H) l =
      blocksOf (fun x => (x + H) % (2 * H)) (List.range' 0 H) l := by
    rw [blocksOf, blocksOf, ← range'_zero_map_add H H, List.map_map]
    congr 1
    apply List.map_congr_left
    intro u hu
    rcases List.mem_range'_1.mp hu with ⟨_, hu2⟩
    show l.filter (fun x => x = H + u) = _
    apply List.filter_congr
    intro x hx
    rw [decide_eq_decide, hmod x (hl x hx)]
    by_cases hxH : x < H
    · rw [if_pos hxH]; omega
    · rw [if_neg hxH]; omega
  have hpart2 : blocksOf (fun x => x) (List.range' 0 H) l =
      blocksOf (fun x => (x + H) % (2 * H)) (List.range' H H) l := by
    rw [blocksOf, blocksOf, ← range'_zero_map_add H H, List.map_map]
    congr 1
    apply List.map_congr_left
    intro u hu
    rcases List.mem_range'_1.mp hu with ⟨_, hu2⟩
    show _ = l.filter (fun x => (x + H) % (2 * H) = H + u)
    apply List.filter_congr
    intro x hx
    have hx2 := hl x hx
    rw [decide_eq_decide, hmod x hx2]
    by_cases hxH : x < H
    · rw [if_pos hxH]; omega
    · rw [if_neg hxH]; omega
  rw [hpart1, hpart2]

theorem blocksOf_float_split (H : Nat) (l : List Nat)
    (hl : ∀ x ∈ l, x < 2 * H) :
    blocksOf (fun x => x) (descRange H H) l ++
      blocksOf (fun x => x) (List.range' 0 H) l =
    blocksOf (fun x => if x < H then x + H else 2 * H - 1 - x)
      (List.range' 0 (2 * H)) l := by
  have hsplit : List.range' 0 (2 * H) = List.range' 0 H ++ List.range' H H := by
    have h1 := List.range'_append 0 H H 1
    rw [show 0 + 1 * H = H from by ring] at h1
    rw [show 2 * H = H + H from by ring]
    exact h1.symm
  rw [hsplit, blocksOf_append]
  have hpart1 : blocksOf (fun x => x) (descRange H H) l =
      blocksOf (fun x => if x < H then x + H else 2 * H - 1 - x)
        (List.range' 0 H) l := by
    rw [blocksOf, blocksOf, descRange_eq_map H H, List.map_map]
    congr 1
    apply List.map_congr_left
    intro u hu
    rcases List.mem_range'_1.mp hu with ⟨_, hu2⟩
    show l.filter (fun x => x = H + H - 1 - u) = _
    apply List.filter_congr
    intro x hx
    have hx2 := hl x hx
    rw [decide_eq_decide]
    by_cases hxH : x < H
    · rw [if_pos hxH]; omega
    · rw [if_neg hxH]; omega
  have hpart2 : blocksOf (fun x => x) (List.range' 0 H) l =
      blocksOf (fun x => if x < H then x + H else 2 * H - 1 - x)
        (List.range' H H) l := by
    rw [blocksOf, blocksOf, ← range'_zero_map_add H H, List.map_map]
    congr 1
    apply List.map_congr_left
    intro u hu
    rcases List.mem_range'_1.mp hu with ⟨_, hu2⟩
    show _ = l.filter (fun x => (if x < H then x + H else 2 * H - 1 - x) = H + u)
    apply List.filter_congr
    intro x hx
    have hx2 := hl x hx
    rw [decide_eq_decide]
    by_cases hxH : x < H
    · rw [if_pos hxH]; omega
    · rw [if_neg hxH]; omega
  rw [hpart1, hpart2]

/-! ## One pass on the invariant state -/

/-- A non-final pass on a list stably grouped by its low `8i` bits regroups
it by its low `8(i+1)` bits. -/
theorem asc_blocks_mod (w i : Nat) (l : List Nat) (h : 8 * i + 8 ≤ w) :
    ((List.range' 0 NUM_BUCKETS).map (fun b =>
      (blocksOf (fun x => x % 2 ^ (8 * i)) (List.range' 0 (2 ^ (8 * i))) l).filter
        (fun x => toRadix w x (8 * i) = b))).flatten =
    blocksOf (fun x => x % 2 ^ (8 * (i + 1)))
      (List.range' 0 (2 ^ (8 * (i + 1)))) l := by
  have hK : 0 < 2 ^ (8 * i) := Nat.pos_pow_of_pos _ (by norm_num)
  rw [blocksOf_cascade (fun x => toRadix w x (8 * i)) (fun x => x % 2 ^ (8 * i))
      (2 ^ (8 * i)) hK (List.range' 0 NUM_BUCKETS) l (fun x => Nat.mod_lt x hK),
    range'_mul_flatMap (2 ^ (8 * i)) NUM_BUCKETS 0,
    show (0 : Nat) * 2 ^ (8 * i) = 0 from by ring,
    show NUM_BUCKETS * 2 ^ (8 * i) = 2 ^ (8 * (i + 1)) from by
      rw [show NUM_BUCKETS = 2 ^ 8 from rfl, ← pow_add]
      congr 1
      omega]
  apply blocksOf_congr
  intro x _
  rw [show 8 * (i + 1) = 8 * i + 8 from by ring]
  exact byte_recompose w (8 * i) x h

/-- The integer engine's final pass on a list stably grouped by its low
`w - 8` bits yields the list grouped by the two's-complement key. -/
theorem int_final_blocks (w i : Nat) (l : List Nat) (h : 8 * i + 8 = w)
    (hl : ∀ x ∈ l, x < 2 ^ w) :
    ((List.range' 128 128 ++ List.range' 0 128).map (fun b =>
      (blocksOf (fun x => x % 2 ^ (8 * i)) (List.range' 0 (2 ^ (8 * i))) l).filter
        (fun x => toRadix w x (8 * i) = b))).flatten =
    blocksOf (keyS w) (List.range' 0 (2 ^ w)) l := by
  have hK : 0 < 2 ^ (8 * i) := Nat.pos_pow_of_pos _ (by norm_num)
  have hH : 128 * 2 ^ (8 * i) = 2 ^ (w - 1) := by
    rw [show (128 : Nat) = 2 ^ 7 from rfl, ← pow_add]
    congr 1
    omega
  have h2 : 2 * 2 ^ (w - 1) = 2 ^ w := by
    rw [← pow_succ']
    congr 1
    omega
  rw [blocksOf_cascade (fun x => toRadix w x (8 * i)) (fun x => x % 2 ^ (8 * i))
      (2 ^ (8 * i)) hK (List.range' 128 128 ++ List.range' 0 128) l
      (fun x => Nat.mod_lt x hK),
    List.flatMap_append,
    range'_mul_flatMap (2 ^ (8 * i)) 128 128,
    range'_mul_flatMap (2 ^ (8 * i)) 128 0,
    show (0 : Nat) * 2 ^ (8 * i) = 0 from by ring, hH]
  have hc := blocksOf_congr
    (fun x => toRadix w x (8 * i) * 2 ^ (8 * i) + x % 2 ^ (8 * i))
    (fun x => x)
    (List.range' (2 ^ (w - 1)) (2 ^ (w - 1)) ++ List.range' 0 (2 ^ (w - 1))) l
    (fun x hx => by
      show toRadix w x (8 * i) * 2 ^ (8 * i) + x % 2 ^ (8 * i) = x
      rw [byte_recompose w (8 * i) x (by omega), h, Nat.mod_eq_of_lt (hl x hx)])
  rw [hc, blocksOf_rotate (2 ^ (w - 1)) l (fun x hx => by rw [h2]; exact hl x hx), h2]
  have hk : (fun x => (x + 2 ^ (w - 1)) % 2 ^ w) = keyS w := rfl
  rw [hk]

/-- The float engine's final pass on a list stably grouped by its low
`w - 8` bits yields the list grouped by the sign-corrected bit-pattern key. -/
theorem float_final_blocks (w i : Nat) (l : List Nat) (h : 8 * i + 8 = w)
    (hl : ∀ x ∈ l, x < 2 ^ w) :
    (((descRange 128 128).map (fun b =>
        ((blocksOf (fun x => x % 2 ^ (8 * i)) (List.range' 0 (2 ^ (8 * i))) l).filter
          (fun x => toRadix w x (8 * i) = b)).reverse)) ++
      ((List.range' 0 128).map (fun b =>
        (blocksOf (fun x => x % 2 ^ (8 * i)) (List.range' 0 (2 ^ (8 * i))) l).filter
          (fun x => toRadix w x (8 * i) = b)))).flatten =
    blocksOf (keyF w) (List.range' 0 (2 ^ w)) l := by
  have hK : 0 < 2 ^ (8 * i) := Nat.pos_pow_of_pos _ (by norm_num)
  have hH : 128 * 2 ^ (8 * i) = 2 ^ (w - 1) := by
    rw [show (128 : Nat) = 2 ^ 7 from rfl, ← pow_add]
    congr 1
    omega
  have h2 : 2 * 2 ^ (w - 1) = 2 ^ w := by
    rw [← pow_succ']
    congr 1
    omega
  have hid : ∀ x ∈ l, toRadix w x (8 * i) * 2 ^ (8 * i) + x % 2 ^ (8 * i) = x := by
    intro x hx
    rw [byte_recompose w (8 * i) x (by omega), h, Nat.mod_eq_of_lt (hl x hx)]
  rw [List.flatten_append]
  have hneg : ((descRange 128 128).map (fun b =>
      ((blocksOf (fun x => x % 2 ^ (8 * i)) (List.range' 0 (2 ^ (8 * i))) l).filter
        (fun x => toRadix w x (8 * i) = b)).reverse)).flatten =
      blocksOf (fun x => x) (descRange (2 ^ (w - 1)) (2 ^ (w - 1))) l := by
    rw [List.map_congr_left (fun b _ => rev_filter_blocksOf_byte
        (fun x => toRadix w x (8 * i)) (fun x => x % 2 ^ (8 * i))
        (2 ^ (8 * i)) hK l (fun x => Nat.mod_lt x hK) hid b),
      ← hH, ← descRange_mul_flatMap (2 ^ (8 * i)) 128 128,
      blocksOf, List.map_flatMap]
    simp only [List.map_map]
    rw [List.flatMap_def, List.flatten_flatten, List.map_map]
    rfl
  have hpos : ((List.range' 0 128).map (fun b =>
      (blocksOf (fun x => x % 2 ^ (8 * i)) (List.range' 0 (2 ^ (8 * i))) l).filter
        (fun x => toRadix w x (8 * i) = b))).flatten =
      blocksOf (fun x => x) (List.range' 0 (2 ^ (w - 1))) l := by
    rw [blocksOf_cascade (fun x => toRadix w x (8 * i)) (fun x => x % 2 ^ (8 * i))
        (2 ^ (8 * i)) hK (List.range' 0 128) l (fun x => Nat.mod_lt x hK),
      range'_mul_flatMap (2 ^ (8 * i)) 128 0,
      show (0 : Nat) * 2 ^ (8 * i) = 0 from by ring, hH]
    exact blocksOf_congr _ _ _ l hid
  rw [hneg, hpos,
    blocksOf_float_split (2 ^ (w - 1)) l (fun x hx => by rw [h2]; exact hl x hx), h2]
  rfl

/-! ## Running the passes -/

theorem runPasses_append (step : Nat → List Nat → Option (List Nat)) :
    ∀ (A B : List Nat) (l : List Nat),
    runPasses step (A ++ B) l = (runPasses step A l).bind (runPasses step B) := by
  intro A
  induction A with
  | nil => intro B l; rfl
  | cons i A ih =>
    intro B l
    rw [List.cons_append, runPasses, runPasses]
    cases step i l with
    | none => rfl
    | some l' => rw [Option.some_bind, Option.some_bind, ih B l']

theorem runPasses_invariant (step : Nat → List Nat → Option (List Nat))
    (P : Nat → List Nat) :
    ∀ (m m0 : Nat), (∀ i, m0 ≤ i → i < m0 + m → step i (P i) = some (P (i + 1))) →
    runPasses step (List.range' m0 m) (P m0) = some (P (m0 + m)) := by
  intro m
  induction m with
  | zero => intro m0 _; rfl
  | succ m ih =>
    intro m0 hstep
    rw [List.range'_succ, runPasses, hstep m0 (le_refl m0) (by omega), Option.some_bind]
    have h1 := ih (m0 + 1) (fun i h1 h2 => hstep i (by omega) (by omega))
    rw [show m0 + (m + 1) = m0 + 1 + m from by omega]
    exact h1

/-- The integer engine sorts any list of `w`-bit patterns into the stable
grouping by the two's-complement key. -/
theorem radix_sort_int_eq (nb : Nat) (l : List Nat) (h1 : 1 ≤ nb) (h2 : nb ≤ 32)
    (hl : ∀ x ∈ l, x < 2 ^ (8 * nb)) :
    radix_sort_int nb l =
      some (blocksOf (keyS (8 * nb)) (List.range' 0 (2 ^ (8 * nb))) l) := by
  rw [radix_sort_int]
  have hrange : List.range nb = List.range' 0 (nb - 1) ++ [nb - 1] := by
    rw [List.range_eq_range', show nb = (nb - 1) + 1 from by omega, List.range'_concat]
    congr 2
    omega
  rw [hrange, runPasses_append]
  have hphase1 : runPasses
      (fun i li => intPass (8 * nb) (i * SHIFT_BITS % 256) (i == nb - 1) li)
      (List.range' 0 (nb - 1)) l =
      some (blocksOf (fun x => x % 2 ^ (8 * (nb - 1)))
        (List.range' 0 (2 ^ (8 * (nb - 1)))) l) := by
    have hP := runPasses_invariant
      (fun i li => intPass (8 * nb) (i * SHIFT_BITS % 256) (i == nb - 1) li)
      (fun i => blocksOf (fun x => x % 2 ^ (8 * i)) (List.range' 0 (2 ^ (8 * i))) l)
      (nb - 1) 0
      (fun i hi1 hi2 => by
        have hne : (i == nb - 1) = false := beq_eq_false_iff_ne.mpr (by omega)
        have hsh : i * SHIFT_BITS % 256 = 8 * i := by
          rw [show SHIFT_BITS = 8 from rfl, Nat.mod_eq_of_lt (by omega)]
          ring
        show intPass (8 * nb) (i * SHIFT_BITS % 256) (i == nb - 1)
            (blocksOf (fun x => x % 2 ^ (8 * i)) (List.range' 0 (2 ^ (8 * i))) l) =
          some (blocksOf (fun x => x % 2 ^ (8 * (i + 1)))
            (List.range' 0 (2 ^ (8 * (i + 1)))) l)
        rw [hne, hsh, intPass_nonfinal (8 * nb) (8 * i), asc_blocks_mod (8 * nb) i l (by omega)])
    have hP2 : runPasses
        (fun i li => intPass (8 * nb) (i * SHIFT_BITS % 256) (i == nb - 1) li)
        (List.range' 0 (nb - 1))
        (blocksOf (fun x => x % 2 ^ (8 * 0)) (List.range' 0 (2 ^ (8 * 0))) l) =
      some (blocksOf (fun x => x % 2 ^ (8 * (0 + (nb - 1))))
        (List.range' 0 (2 ^ (8 * (0 + (nb - 1))))) l) := hP
    rw [blocksOf_mod_one, Nat.zero_add] at hP2
    exact hP2
  rw [hphase1, Option.some_bind, runPasses]
  have hne : (nb - 1 == nb - 1) = true := beq_self_eq_true _
  have hsh : (nb - 1) * SHIFT_BITS % 256 = 8 * (nb - 1) := by
    rw [show SHIFT_BITS = 8 from rfl, Nat.mod_eq_of_lt (by omega)]
    ring
  simp only [hne, hsh]
  rw [intPass_final (8 * nb) (8 * (nb - 1)),
    int_final_blocks (8 * nb) (nb - 1) l (by omega) (by exact hl), Option.some_bind]
  rfl

/-- The float engine sorts any list of `w`-bit patterns into the stable
grouping by the sign-corrected bit-pattern key. -/
theorem radix_sort_float_eq (nb : Nat) (l : List Nat) (h1 : 1 ≤ nb) (h2 : nb ≤ 32)
    (hl : ∀ x ∈ l, x < 2 ^ (8 * nb)) :
    radix_sort_float nb l =
      some (blocksOf (keyF (8 * nb)) (List.range' 0 (2 ^ (8 * nb))) l) := by
  rw [radix_sort_float]
  have hrange : List.range nb = List.range' 0 (nb - 1) ++ [nb - 1] := by
    rw [List.range_eq_range', show nb = (nb - 1) + 1 from by omega, List.range'_concat]
    congr 2
    omega
  rw [hrange, runPasses_append]
  have hphase1 : runPasses
      (fun i li => floatPass (8 * nb) (i * SHIFT_BITS % 256) (i == nb - 1) li)
      (List.range' 0 (nb - 1)) l =
      some (blocksOf (fun x => x % 2 ^ (8 * (nb - 1)))
        (List.range' 0 (2 ^ (8 * (nb - 1)))) l) := by
    have hP := runPasses_invariant
      (fun i li => floatPass (8 * nb) (i * SHIFT_BITS % 256) (i == nb - 1) li)
      (fun i => blocksOf (fun x => x % 2 ^ (8 * i)) (List.range' 0 (2 ^ (8 * i))) l)
      (nb - 1) 0
      (fun i hi1 hi2 => by
        have hne : (i == nb - 1) = false := beq_eq_false_iff_ne.mpr (by omega)
        have hsh : i * SHIFT_BITS % 256 = 8 * i := by
          rw [show SHIFT_BITS = 8 from rfl, Nat.mod_eq_of_lt (by omega)]
          ring
        show floatPass (8 * nb) (i * SHIFT_BITS % 256) (i == nb - 1)
            (blocksOf (fun x => x % 2 ^ (8 * i)) (List.range' 0 (2 ^ (8 * i))) l) =
          some (blocksOf (fun x => x % 2 ^ (8 * (i + 1)))
            (List.range' 0 (2 ^ (8 * (i + 1)))) l)
        rw [hne, hsh, floatPass_nonfinal (8 * nb) (8 * i), asc_blocks_mod (8 * nb) i l (by omega)])
    have hP2 : runPasses
        (fun i li => floatPass (8 * nb) (i * SHIFT_BITS % 256) (i == nb - 1) li)
        (List.range' 0 (nb - 1))
        (blocksOf (fun x => x % 2 ^ (8 * 0)) (List.range' 0 (2 ^ (8 * 0))) l) =
      some (blocksOf (fun x => x % 2 ^ (8 * (0 + (nb - 1))))
        (List.range' 0 (2 ^ (8 * (0 + (nb - 1))))) l) := hP
    rw [blocksOf_mod_one, Nat.zero_add] at hP2
    exact hP2
  rw [hphase1, Option.some_bind, runPasses]
  have hne : (nb - 1 == nb - 1) = true := beq_self_eq_true _
  have hsh : (nb - 1) * SHIFT_BITS % 256 = 8 * (nb - 1) := by
    rw [show SHIFT_BITS = 8 from rfl, Nat.mod_eq_of_lt (by omega)]
    ring
  simp only [hne, hsh]
  rw [floatPass_final (8 * nb) (8 * (nb - 1)),
    float_final_blocks (8 * nb) (nb - 1) l (by omega) (by exact hl), Option.some_bind]
  rfl

/-! ## Sortedness and permutation of the grouped form -/

theorem blocksOf_pairwise (key : Nat → Nat) (K : Nat) (l : List Nat) :
    (blocksOf key (List.range' 0 K) l).Pairwise (fun a b => key a ≤ key b) := by
  rw [blocksOf, List.pairwise_flatten]
  constructor
  · intro bl hbl
    rw [List.mem_map] at hbl
    obtain ⟨u, _, rfl⟩ := hbl
    apply List.pairwise_of_forall_mem_list
    intro a ha b hb
    rw [List.mem_filter] at ha hb
    have h1 : key a = u := by simpa using ha.2
    have h2 : key b = u := by simpa using hb.2
    omega
  · rw [List.pairwise_map]
    apply (List.pairwise_lt_range' 0 K).imp
    intro u1 u2 h12 x hx y hy
    rw [List.mem_filter] at hx hy
    have h1 : key x = u1 := by simpa using hx.2
    have h2 : key y = u2 := by simpa using hy.2
    omega

theorem blocksOf_rev_perm (β : Nat → Nat) (rev : Nat → Bool) :
    ∀ (order : List Nat) (l : List Nat), order.Nodup →
    (∀ x ∈ l, β x ∈ order) →
    ((order.map (fun b => if rev b then (l.filter (fun x => β x = b)).reverse
      else l.filter (fun x => β x = b))).flatten).Perm l := by
  intro order
  induction order with
  | nil =>
    intro l _ hcov
    have : l = [] := List.eq_nil_iff_forall_not_mem.mpr fun x hx => by
      simpa using hcov x hx
    simp [this]
  | cons b order ih =>
    intro l hnd hcov
    have hbnm : b ∉ order := (List.nodup_cons.mp hnd).1
    rw [List.map_cons, List.flatten_cons]
    have hblocks : ∀ b' ∈ order,
        l.filter (fun x => β x = b') =
        (l.filter (fun x => !(decide (β x = b)))).filter (fun x => β x = b') := by
      intro b' hb'
      have hne : b' ≠ b := fun h => hbnm (h ▸ hb')
      rw [List.filter_filter]
      apply List.filter_congr
      intro x _
      by_cases h : β x = b'
      · have h2 : ¬ (β x = b) := fun hb => hne (by rw [← h, hb])
        simp [h, h2, hne]
      · simp [h]
    have hcov' : ∀ x ∈ l.filter (fun x => !(decide (β x = b))), β x ∈ order := by
      intro x hx
      rw [List.mem_filter] at hx
      have h1 := hcov x hx.1
      have h2 : ¬ (β x = b) := by simpa using hx.2
      rcases List.mem_cons.mp h1 with h | h
      · exact absurd h h2
      · exact h
    have hmapeq : order.map (fun b' => if rev b' then (l.filter (fun x => β x = b')).reverse
        else l.filter (fun x => β x = b')) =
      order.map (fun b' => if rev b' then
        ((l.filter (fun x => !(decide (β x = b)))).filter (fun x => β x = b')).reverse
        else (l.filter (fun x => !(decide (β x = b)))).filter (fun x => β x = b')) := by
      apply List.map_congr_left
      intro b' hb'
      rw [hblocks b' hb']
    rw [hmapeq]
    have hperm1 : (if rev b then (l.filter (fun x => β x = b)).reverse
        else l.filter (fun x => β x = b)).Perm (l.filter (fun x => β x = b)) := by
      by_cases hr : rev b
      · rw [if_pos hr]; exact List.reverse_perm _
      · rw [if_neg hr]
    have hperm2 := ih (l.filter (fun x => !(decide (β x = b))))
      (List.nodup_cons.mp hnd).2 hcov'
    exact ((hperm1.append hperm2).trans (List.filter_append_perm _ l))

/-! ## Every pass succeeds and permutes -/

theorem intPass_some (w s : Nat) (fin : Bool) (l : List Nat) :
    ∃ out, intPass w s fin l = some out ∧ out.Perm l := by
  cases fin with
  | false =>
    refine ⟨_, intPass_nonfinal w s l, ?_⟩
    have h := blocksOf_rev_perm (fun x => toRadix w x s) (fun _ => false)
      (List.range' 0 NUM_BUCKETS) l (List.nodup_range' 0 NUM_BUCKETS)
      (fun x _ => List.mem_range'_1.mpr
        ⟨Nat.zero_le _, by simpa using toRadix_lt_numBuckets w x s⟩)
    simpa using h
  | true =>
    refine ⟨_, intPass_final w s l, ?_⟩
    have hnd : (List.range' 128 128 ++ List.range' 0 128).Nodup := by
      refine (List.nodup_range' _ _).append (List.nodup_range' _ _) ?_
      rw [List.disjoint_left]
      intro b hb1 hb2
      rw [List.mem_range'_1] at hb1 hb2
      omega
    have h := blocksOf_rev_perm (fun x => toRadix w x s) (fun _ => false)
      (List.range' 128 128 ++ List.range' 0 128) l hnd
      (fun x _ => by
        have h1 : (fun x => toRadix w x s) x ≤ 255 := toRadix_le w x s
        rw [List.mem_append, List.mem_range'_1, List.mem_range'_1]
        omega)
    simpa using h

theorem floatPass_some (w s : Nat) (fin : Bool) (l : List Nat) :
    ∃ out, floatPass w s fin l = some out ∧ out.Perm l := by
  cases fin with
  | false =>
    refine ⟨_, floatPass_nonfinal w s l, ?_⟩
    have h := blocksOf_rev_perm (fun x => toRadix w x s) (fun _ => false)
      (List.range' 0 NUM_BUCKETS) l (List.nodup_range' 0 NUM_BUCKETS)
      (fun x _ => List.mem_range'_1.mpr
        ⟨Nat.zero_le _, by simpa using toRadix_lt_numBuckets w x s⟩)
    simpa using h
  | true =>
    refine ⟨_, floatPass_final w s l, ?_⟩
    have hnd : (descRange 128 128 ++ List.range' 0 128).Nodup := by
      refine (nodup_descRange 128 128).append (List.nodup_range' _ _) ?_
      rw [List.disjoint_left]
      intro b hb1 hb2
      rw [mem_descRange] at hb1
      rw [List.mem_range'_1] at hb2
      omega
    have h := blocksOf_rev_perm (fun x => toRadix w x s)
      (fun b => decide (FIRST_NEG_BUCKET ≤ b))
      (descRange 128 128 ++ List.range' 0 128) l hnd
      (fun x _ => by
        have h1 : (fun x => toRadix w x s) x ≤ 255 := toRadix_le w x s
        rw [List.mem_append, mem_descRange, List.mem_range'_1]
        omega)
    rw [List.map_append] at h
    have hmap1 : (descRange 128 128).map (fun b =>
        if decide (FIRST_NEG_BUCKET ≤ b) then (l.filter (fun x => toRadix w x s = b)).reverse
        else l.filter (fun x => toRadix w x s = b)) =
      (descRange 128 128).map
        (fun b => (l.filter (fun x => toRadix w x s = b)).reverse) := by
      apply List.map_congr_left
      intro b hb
      rw [mem_descRange] at hb
      have hF : FIRST_NEG_BUCKET = 128 := rfl
      rw [decide_eq_true (show FIRST_NEG_BUCKET ≤ b by omega), if_pos rfl]
    have hmap2 : (List.range' 0 128).map (fun b =>
        if decide (FIRST_NEG_BUCKET ≤ b) then (l.filter (fun x => toRadix w x s = b)).reverse
        else l.filter (fun x => toRadix w x s = b)) =
      (List.range' 0 128).map (fun b => l.filter (fun x => toRadix w x s = b)) := by
      apply List.map_congr_left
      intro b hb
      rw [List.mem_range'_1] at hb
      have hF : FIRST_NEG_BUCKET = 128 := rfl
      rw [decide_eq_false (show ¬ FIRST_NEG_BUCKET ≤ b by omega)]
      simp
    rw [hmap1, hmap2] at h
    exact h

theorem runPasses_some_perm (step : Nat → List Nat → Option (List Nat))
    (hstep : ∀ i li, ∃ out, step i li = some out ∧ out.Perm li) :
    ∀ (is : List Nat) (l : List Nat),
    ∃ out, runPasses step is l = some out ∧ out.Perm l := by
  intro is
  induction is with
  | nil => intro l; exact ⟨l, rfl, List.Perm.refl l⟩
  | cons i is ih =>
    intro l
    obtain ⟨mid, hmid, hp1⟩ := hstep i l
    obtain ⟨out, hout, hp2⟩ := ih mid
    exact ⟨out, by rw [runPasses, hmid, Option.some_bind, hout], hp2.trans hp1⟩

/-- Both engines always succeed (no unchecked access goes out of bounds) and
return a permutation of the input. -/
theorem radix_sort_int_some_perm (nb : Nat) (l : List Nat) :
    ∃ out, radix_sort_int nb l = some out ∧ out.Perm l := by
  rw [radix_sort_int]
  exact runPasses_some_perm _ (fun i li => intPass_some (8 * nb) _ _ li) (List.range nb) l

theorem radix_sort_float_some_perm (nb : Nat) (l : List Nat) :
    ∃ out, radix_sort_float nb l = some out ∧ out.Perm l := by
  rw [radix_sort_float]
  exact runPasses_some_perm _ (fun i li => floatPass_some (8 * nb) _ _ li) (List.range nb) l

/-! ## Per-pass stability: how one pass rearranges a single byte class -/

theorem flatten_single (f : Nat → List Nat) :
    ∀ (order : List Nat) (b : Nat), b ∈ order → order.Nodup →
    (∀ b' ∈ order, b' ≠ b → f b' = []) →
    (order.map f).flatten = f b := by
  intro order
  induction order with
  | nil => intro b hb _ _; simp at hb
  | cons a order ih =>
    intro b hb hnd hz
    rw [List.map_cons, List.flatten_cons]
    by_cases he : b = a
    · subst he
      have hnil : (order.map f).flatten = [] := by
        rw [List.flatten_eq_nil_iff]
        intro bl hbl
        rw [List.mem_map] at hbl
        obtain ⟨b', hb', rfl⟩ := hbl
        exact hz b' (List.mem_cons_of_mem _ hb')
          (fun h => (List.nodup_cons.mp hnd).1 (h ▸ hb'))
      rw [hnil, List.append_nil]
    · have hbmem : b ∈ order := by
        rcases List.mem_cons.mp hb with h | h
        · exact absurd h he
        · exact h
      rw [hz a (List.mem_cons_self a order) (fun h => he h.symm), List.nil_append]
      exact ih b hbmem (List.nodup_cons.mp hnd).2
        (fun b' h1 h2 => hz b' (List.mem_cons_of_mem _ h1) h2)

theorem filter_filter_self (β : Nat → Nat) (l : List Nat) (b : Nat) :
    (l.filter (fun x => β x = b)).filter (fun x => β x = b) =
      l.filter (fun x => β x = b) := by
  rw [List.filter_filter]
  apply List.filter_congr
  intro x _
  by_cases h : β x = b <;> simp [h]

theorem filter_filter_ne (β : Nat → Nat) (l : List Nat) (b b' : Nat) (h : b' ≠ b) :
    (l.filter (fun x => β x = b')).filter (fun x => β x = b) = [] := by
  rw [List.filter_eq_nil_iff]
  intro a ha
  rw [List.mem_filter] at ha
  have h1 : β a = b' := by simpa using ha.2
  simp [h1, h]

theorem stable_filter_plain (β : Nat → Nat) (order l : List Nat) (b : Nat)
    (hnd : order.Nodup) (hb : b ∈ order) :
    ((order.map (fun b' => l.filter (fun x => β x = b'))).flatten).filter
      (fun x => β x = b) = l.filter (fun x => β x = b) := by
  rw [List.filter_flatten, List.map_map]
  show ((order.map (fun b' =>
    (l.filter (fun x => β x = b')).filter (fun x => β x = b))).flatten) = _
  rw [flatten_single _ order b hb hnd
    (fun b' _ hne => filter_filter_ne β l b b' hne)]
  exact filter_filter_self β l b

theorem stable_filter_none (β : Nat → Nat) (order l : List Nat) (b : Nat)
    (hb : b ∉ order) :
    ((order.map (fun b' => l.filter (fun x => β x = b'))).flatten).filter
      (fun x => β x = b) = [] := by
  rw [List.filter_flatten, List.map_map, List.flatten_eq_nil_iff]
  intro bl hbl
  rw [List.mem_map] at hbl
  obtain ⟨b', hb', rfl⟩ := hbl
  exact filter_filter_ne β l b b' (fun h => hb (h ▸ hb'))

theorem stable_filter_rev (β : Nat → Nat) (order l : List Nat) (b : Nat)
    (hnd : order.Nodup) (hb : b ∈ order) :
    ((order.map (fun b' => (l.filter (fun x => β x = b')).reverse)).flatten).filter
      (fun x => β x = b) = (l.filter (fun x => β x = b)).reverse := by
  rw [List.filter_flatten, List.map_map]
  show ((order.map (fun b' =>
    ((l.filter (fun x => β x = b')).reverse).filter (fun x => β x = b))).flatten) = _
  rw [flatten_single _ order b hb hnd (fun b' _ hne => by
    rw [List.filter_reverse, filter_filter_ne β l b b' hne]
    rfl)]
  rw [List.filter_reverse, filter_filter_self β l b]

theorem stable_filter_none_rev (β : Nat → Nat) (order l : List Nat) (b : Nat)
    (hb : b ∉ order) :
    ((order.map (fun b' => (l.filter (fun x => β x = b')).reverse)).flatten).filter
      (fun x => β x = b) = [] := by
  rw [List.filter_flatten, List.map_map, List.flatten_eq_nil_iff]
  intro bl hbl
  rw [List.mem_map] at hbl
  obtain ⟨b', hb', rfl⟩ := hbl
  show ((l.filter (fun x => β x = b')).reverse).filter (fun x => β x = b) = []
  rw [List.filter_reverse, filter_filter_ne β l b b' (fun h => hb (h ▸ hb'))]
  rfl

/-- Stability of every integer-engine pass: the subsequence of elements with
current byte `b` is unchanged. -/
theorem intPass_stable (w s : Nat) (fin : Bool) (l out : List Nat) (b : Nat)
    (hb : b < NUM_BUCKETS) (h : intPass w s fin l = some out) :
    out.filter (fun x => toRadix w x s = b) = l.filter (fun x => toRadix w x s = b) := by
  have hN : NUM_BUCKETS = 256 := rfl
  cases fin with
  | false =>
    rw [intPass_nonfinal] at h
    obtain rfl := Option.some_inj.mp h
    exact stable_filter_plain _ _ l b (List.nodup_range' 0 NUM_BUCKETS)
      (List.mem_range'_1.mpr ⟨Nat.zero_le _, by omega⟩)
  | true =>
    rw [intPass_final] at h
    obtain rfl := Option.some_inj.mp h
    have hnd : (List.range' 128 128 ++ List.range' 0 128).Nodup := by
      refine (List.nodup_range' _ _).append (List.nodup_range' _ _) ?_
      rw [List.disjoint_left]
      intro a ha1 ha2
      rw [List.mem_range'_1] at ha1 ha2
      omega
    refine stable_filter_plain _ _ l b hnd ?_
    rw [List.mem_append, List.mem_range'_1, List.mem_range'_1]
    omega

/-- Stability of every non-final float-engine pass. -/
theorem floatPass_nonfinal_stable (w s : Nat) (l out : List Nat) (b : Nat)
    (hb : b < NUM_BUCKETS) (h : floatPass w s false l = some out) :
    out.filter (fun x => toRadix w x s = b) = l.filter (fun x => toRadix w x s = b) := by
  have hN : NUM_BUCKETS = 256 := rfl
  rw [floatPass_nonfinal] at h
  obtain rfl := Option.some_inj.mp h
  exact stable_filter_plain _ _ l b (List.nodup_range' 0 NUM_BUCKETS)
    (List.mem_range'_1.mpr ⟨Nat.zero_le _, by omega⟩)

/-- The float engine's final pass keeps non-negative byte classes in order
but reverses each negative byte class. -/
theorem floatPass_final_classes (w s : Nat) (l out : List Nat) (b : Nat)
    (hb : b < NUM_BUCKETS) (h : floatPass w s true l = some out) :
    (b < FIRST_NEG_BUCKET →
      out.filter (fun x => toRadix w x s = b) =
        l.filter (fun x => toRadix w x s = b)) ∧
    (FIRST_NEG_BUCKET ≤ b →
      out.filter (fun x => toRadix w x s = b) =
        (l.filter (fun x => toRadix w x s = b)).reverse) := by
  have hN : NUM_BUCKETS = 256 := rfl
  have hF : FIRST_NEG_BUCKET = 128 := rfl
  rw [floatPass_final] at h
  obtain rfl := Option.some_inj.mp h
  rw [List.flatten_append, List.filter_append]
  constructor
  · intro hlow
    rw [stable_filter_none_rev _ _ l b (by rw [mem_descRange]; omega),
      stable_filter_plain _ _ l b (List.nodup_range' 0 128)
        (List.mem_range'_1.mpr ⟨Nat.zero_le _, by omega⟩),
      List.nil_append]
  · intro hhigh
    rw [stable_filter_rev _ _ l b (nodup_descRange 128 128)
        ((mem_descRange 128 128 b).mpr (by omega)),
      stable_filter_none _ _ l b (by rw [List.mem_range'_1]; omega),
      List.append_nil]

/-! ## The two final keys versus the numeric orders they encode -/

theorem mem_blocksOf (key : Nat → Nat) (order l : List Nat) (x : Nat) :
    x ∈ blocksOf key order l → x ∈ l := by
  rw [blocksOf]
  intro hx
  rw [List.mem_flatten] at hx
  obtain ⟨bl, hbl, hxbl⟩ := hx
  rw [List.mem_map] at hbl
  obtain ⟨u, _, rfl⟩ := hbl
  exact (List.mem_filter.mp hxbl).1

theorem blocksOf_perm (key : Nat → Nat) (K : Nat) (l : List Nat)
    (hcov : ∀ x ∈ l, key x < K) :
    (blocksOf key (List.range' 0 K) l).Perm l := by
  have h := blocksOf_rev_perm key (fun _ => false) (List.range' 0 K) l
    (List.nodup_range' _ _)
    (fun x hx => List.mem_range'_1.mpr ⟨Nat.zero_le _, by
      have := hcov x hx; omega⟩)
  simpa [blocksOf] using h

theorem keyS_eq_cases (w x : Nat) (hw : 1 ≤ w) (hx : x < 2 ^ w) :
    keyS w x = if x < 2 ^ (w - 1) then x + 2 ^ (w - 1) else x - 2 ^ (w - 1) := by
  have h2 : 2 ^ w = 2 * 2 ^ (w - 1) := by
    rw [← pow_succ']
    congr 1
    omega
  rw [keyS]
  by_cases h : x < 2 ^ (w - 1)
  · rw [if_pos h, Nat.mod_eq_of_lt (by omega)]
  · rw [if_neg h, Nat.mod_eq_sub_mod (by omega),
      show x + 2 ^ (w - 1) - 2 ^ w = x - 2 ^ (w - 1) from by omega,
      Nat.mod_eq_of_lt (by omega)]

theorem cast_two_pow (w : Nat) : ((2 ^ w : Nat) : Int) = 2 ^ w := by
  push_cast
  ring

theorem keyS_le_iff_toSigned_le (w a b : Nat) (hw : 1 ≤ w)
    (ha : a < 2 ^ w) (hb : b < 2 ^ w) :
    keyS w a ≤ keyS w b ↔ toSigned w a ≤ toSigned w b := by
  rw [keyS_eq_cases w a hw ha, keyS_eq_cases w b hw hb, toSigned, toSigned]
  have h2 : 2 ^ w = 2 * 2 ^ (w - 1) := by
    rw [← pow_succ']
    congr 1
    omega
  have hc := cast_two_pow w
  by_cases hA : a < 2 ^ (w - 1)
  · rw [if_pos hA, if_pos hA]
    by_cases hB : b < 2 ^ (w - 1)
    · rw [if_pos hB, if_pos hB]
      omega
    · rw [if_neg hB, if_neg hB]
      omega
  · rw [if_neg hA, if_neg hA]
    by_cases hB : b < 2 ^ (w - 1)
    · rw [if_pos hB, if_pos hB]
      omega
    · rw [if_neg hB, if_neg hB]
      omega

theorem keyS_le_iff_msb (w a b : Nat) (hw : 1 ≤ w)
    (ha : a < 2 ^ w) (hb : b < 2 ^ w) :
    keyS w a ≤ keyS w b ↔
      ((2 ^ (w - 1) ≤ a ∧ b < 2 ^ (w - 1)) ∨
        ((2 ^ (w - 1) ≤ a ↔ 2 ^ (w - 1) ≤ b) ∧ a ≤ b)) := by
  have h2 : 2 ^ w = 2 * 2 ^ (w - 1) := by
    rw [← pow_succ']
    congr 1
    omega
  rw [keyS_eq_cases w a hw ha, keyS_eq_cases w b hw hb]
  by_cases hA : a < 2 ^ (w - 1)
  · rw [if_pos hA]
    by_cases hB : b < 2 ^ (w - 1)
    · rw [if_pos hB]
      omega
    · rw [if_neg hB]
      omega
  · rw [if_neg hA]
    by_cases hB : b < 2 ^ (w - 1)
    · rw [if_pos hB]
      omega
    · rw [if_neg hB]
      omega

theorem toUnsigned_lt (w : Nat) (v : Int) : toUnsigned w v < 2 ^ w := by
  rw [toUnsigned]
  have hpos : (0 : Int) < ((2 ^ w : Nat) : Int) := by
    rw [cast_two_pow]
    positivity
  have h1 := Int.emod_nonneg v (ne_of_gt hpos)
  have h2 := Int.emod_lt_of_pos v hpos
  omega

theorem int_emod_case (v N : Int) (_hN : 0 < N) (h1 : -N ≤ v) (h2 : v < N) :
    v % N = if 0 ≤ v then v else v + N := by
  by_cases hv : 0 ≤ v
  · rw [if_pos hv]
    exact Int.emod_eq_of_lt hv h2
  · rw [if_neg hv]
    have h3 : v % N = (v + N * 1) % N := (Int.add_mul_emod_self_left v N 1).symm
    rw [h3, Int.mul_one, Int.emod_eq_of_lt (by omega) (by omega)]

theorem toSigned_toUnsigned (w : Nat) (v : Int) (hw : 1 ≤ w)
    (h1 : -(2 ^ (w - 1) : Int) ≤ v) (h2 : v < 2 ^ (w - 1)) :
    toSigned w (toUnsigned w v) = v := by
  have h2w : (2 : Int) ^ w = 2 * 2 ^ (w - 1) := by
    rw [← pow_succ']
    congr 1
    omega
  have hc := cast_two_pow w
  have hc1 := cast_two_pow (w - 1)
  have hNpos : (0 : Int) < ((2 ^ w : Nat) : Int) := by
    rw [hc]
    positivity
  have hmod : v % ((2 ^ w : Nat) : Int) = if 0 ≤ v then v else v + 2 ^ w := by
    rw [int_emod_case v _ hNpos (by omega) (by omega), hc]
  rw [toUnsigned, toSigned, hmod]
  by_cases hv : 0 ≤ v
  · rw [if_pos hv] at *
    have hvt : ((v.toNat : Int)) = v := Int.toNat_of_nonneg hv
    have hlt : v.toNat < 2 ^ (w - 1) := by omega
    rw [if_pos hlt, hvt]
  · rw [if_neg hv]
    have hnn : (0 : Int) ≤ v + 2 ^ w := by omega
    have hvt : (((v + 2 ^ w).toNat : Int)) = v + 2 ^ w := Int.toNat_of_nonneg hnn
    have hge : ¬ ((v + 2 ^ w).toNat < 2 ^ (w - 1)) := by omega
    rw [if_neg hge]
    omega

/-! ## The simple single-bit-mask reference engine

Modelled from the spec: `radix_sort_inplace` is imported and tested by
`src/main.rs` (`use radix::radix_sort_inplace`, `test_sort`), but its
definition is not under `src/`.  Per spec section 4.4 it is a minimal LSB
radix sort over unsigned 32-bit integers that processes one bit per
iteration, splitting the sequence stably into zero-bit elements followed by
one-bit elements (a single exclusive prefix-sum split), and stops as soon as
the current bit's mask exceeds the caller-supplied `max_value` bound. -/

/-- Modelled from the spec: one iteration of the single-bit engine — a
stable partition on bit `k`, zero-bit elements first. -/
def bitPass (k : Nat) (l : List Nat) : List Nat :=
  l.filter (fun x => x / 2 ^ k % 2 = 0) ++ l.filter (fun x => x / 2 ^ k % 2 = 1)

/-- Modelled from the spec: the bit loop, at most 32 iterations (`u32`),
stopping once `2 ^ k` exceeds `maxValue`. -/
def radix_sort_inplace_go (maxValue : Nat) : Nat → Nat → List Nat → List Nat
  | 0, _, l => l
  | fuel + 1, k, l =>
    if 2 ^ k ≤ maxValue then radix_sort_inplace_go maxValue fuel (k + 1) (bitPass k l)
    else l

/-- Modelled from the spec: `radix_sort_inplace(max_value, sequence)`. -/
def radix_sort_inplace (maxValue : Nat) (l : List Nat) : List Nat :=
  radix_sort_inplace_go maxValue 32 0 l

theorem blocksOf_mod_zero (l : List Nat) :
    blocksOf (fun x => x % 2 ^ 0) (List.range' 0 (2 ^ 0)) l = l := by
  norm_num [blocksOf, List.range'_one, Nat.mod_one]

theorem bitPass_blocks (k : Nat) (l : List Nat) :
    bitPass k l = ((List.range' 0 2).map
      (fun b => l.filter (fun x => x / 2 ^ k % 2 = b))).flatten := by
  rw [bitPass, show List.range' 0 2 = [0, 1] from rfl]
  simp

theorem bitPass_mod (k : Nat) (l : List Nat) :
    bitPass k (blocksOf (fun x => x % 2 ^ k) (List.range' 0 (2 ^ k)) l) =
      blocksOf (fun x => x % 2 ^ (k + 1)) (List.range' 0 (2 ^ (k + 1))) l := by
  have hK : 0 < 2 ^ k := Nat.pos_pow_of_pos _ (by norm_num)
  rw [bitPass_blocks, blocksOf_cascade (fun x => x / 2 ^ k % 2) (fun x => x % 2 ^ k)
      (2 ^ k) hK (List.range' 0 2) l (fun x => Nat.mod_lt x hK),
    range'_mul_flatMap (2 ^ k) 2 0,
    show (0 : Nat) * 2 ^ k = 0 from by ring,
    show 2 * 2 ^ k = 2 ^ (k + 1) from (pow_succ' 2 k).symm]
  apply blocksOf_congr
  intro x _
  rw [show (2 : Nat) ^ (k + 1) = 2 ^ k * 2 from pow_succ 2 k, @Nat.mod_mul (2 ^ k) 2 x]
  ring

theorem radix_sort_inplace_go_invariant (maxValue : Nat) :
    ∀ (fuel k : Nat) (l : List Nat),
    ∃ m, radix_sort_inplace_go maxValue fuel k
        (blocksOf (fun x => x % 2 ^ k) (List.range' 0 (2 ^ k)) l) =
      blocksOf (fun x => x % 2 ^ m) (List.range' 0 (2 ^ m)) l ∧
      k ≤ m ∧ (m = k + fuel ∨ maxValue < 2 ^ m) := by
  intro fuel
  induction fuel with
  | zero => intro k l; exact ⟨k, rfl, le_refl k, Or.inl rfl⟩
  | succ fuel ih =>
    intro k l
    rw [radix_sort_inplace_go]
    by_cases h : 2 ^ k ≤ maxValue
    · rw [if_pos h, bitPass_mod k l]
      obtain ⟨m, hm, h1, h3⟩ := ih (k + 1) l
      refine ⟨m, hm, by omega, ?_⟩
      rcases h3 with h3 | h3
      · left; omega
      · right; exact h3
    · rw [if_neg h]
      exact ⟨k, rfl, le_refl k, Or.inr (by omega)⟩

/-- The simple reference engine sorts: for elements below `2 ^ 32` and below
or equal to the supplied bound, the result is the stable grouping of `l` by
its value. -/
theorem radix_sort_inplace_eq (maxValue : Nat) (l : List Nat)
    (hl : ∀ x ∈ l, x < 2 ^ 32) (hmax : ∀ x ∈ l, x ≤ maxValue) :
    ∃ m, radix_sort_inplace maxValue l =
        blocksOf (fun x => x % 2 ^ m) (List.range' 0 (2 ^ m)) l ∧
      ∀ x ∈ l, x < 2 ^ m := by
  obtain ⟨m, hm, h1, h3⟩ := radix_sort_inplace_go_invariant maxValue 32 0 l
  rw [blocksOf_mod_zero] at hm
  refine ⟨m, hm, ?_⟩
  intro x hx
  rcases h3 with h3 | h3
  · have hm32 : m = 32 := by omega
    subst hm32
    exact hl x hx
  · have := hmax x hx
    omega

theorem radix_sort_inplace_sorted_perm (maxValue : Nat) (l : List Nat)
    (hl : ∀ x ∈ l, x < 2 ^ 32) (hmax : ∀ x ∈ l, x ≤ maxValue) :
    (radix_sort_inplace maxValue l).Perm l ∧
      (radix_sort_inplace maxValue l).Sorted (· ≤ ·) := by
  obtain ⟨m, hm, hlt⟩ := radix_sort_inplace_eq maxValue l hl hmax
  rw [hm, blocksOf_congr (fun x => x % 2 ^ m) (fun x => x) _ l
    (fun x hx => Nat.mod_eq_of_lt (hlt x hx))]
  constructor
  · exact blocksOf_perm (fun x => x) (2 ^ m) l hlt
  · exact blocksOf_pairwise (fun x => x) (2 ^ m) l

/-! # The claims -/

set_option maxRecDepth 100000 in
/-- C1: `radix_sort_int` permutes every vector of signed integers (modelled
as two's-complement bit patterns via `toUnsigned`, for any byte width,
covering i32/i64/i128) into ascending signed order; in particular the i64
vector `[i32::MAX+1, 4, 3, 2, 1, -1, -2, -3, -4, i32::MIN-1]` (given here by
its 64-bit two's-complement patterns) becomes
`[i32::MIN-1, -4, -3, -2, -1, 1, 2, 3, 4, i32::MAX+1]`. -/
theorem c1_radix_sort_int_signed_sorts :
    (∀ (nb : Nat) (ints : List Int), 1 ≤ nb → nb ≤ 32 →
      (∀ v ∈ ints, -(2 ^ (8 * nb - 1) : Int) ≤ v ∧ v < 2 ^ (8 * nb - 1)) →
      ∃ out, radix_sort_int nb (ints.map (toUnsigned (8 * nb))) = some out ∧
        (out.map (toSigned (8 * nb))).Perm ints ∧
        (out.map (toSigned (8 * nb))).Sorted (· ≤ ·)) ∧
    radix_sort_int 8 [2147483648, 4, 3, 2, 1, 18446744073709551615,
        18446744073709551614, 18446744073709551613, 18446744073709551612,
        18446744071562067967] =
      some [18446744071562067967, 18446744073709551612, 18446744073709551613,
        18446744073709551614, 18446744073709551615, 1, 2, 3, 4, 2147483648] := by
  constructor
  · intro nb ints h1 h2 hr
    have hw1 : 1 ≤ 8 * nb := by omega
    have hl : ∀ x ∈ ints.map (toUnsigned (8 * nb)), x < 2 ^ (8 * nb) := by
      intro x hx
      rw [List.mem_map] at hx
      obtain ⟨v, _, rfl⟩ := hx
      exact toUnsigned_lt (8 * nb) v
    have hEq := radix_sort_int_eq nb (ints.map (toUnsigned (8 * nb))) h1 h2 hl
    refine ⟨_, hEq, ?_, ?_⟩
    · have hkey_lt : ∀ x ∈ ints.map (toUnsigned (8 * nb)),
          keyS (8 * nb) x < 2 ^ (8 * nb) := fun x _ => by
        rw [keyS]
        exact Nat.mod_lt _ (Nat.pos_pow_of_pos _ (by norm_num))
      have hperm := (blocksOf_perm (keyS (8 * nb)) (2 ^ (8 * nb))
        (ints.map (toUnsigned (8 * nb))) hkey_lt).map (toSigned (8 * nb))
      have h4 : (ints.map (toUnsigned (8 * nb))).map (toSigned (8 * nb)) = ints := by
        rw [List.map_map]
        have h5 : ∀ v ∈ ints,
            (toSigned (8 * nb) ∘ toUnsigned (8 * nb)) v = id v := by
          intro v hv
          obtain ⟨ha, hb⟩ := hr v hv
          show toSigned (8 * nb) (toUnsigned (8 * nb) v) = v
          exact toSigned_toUnsigned (8 * nb) v hw1 ha hb
        rw [List.map_congr_left h5, List.map_id]
      rw [h4] at hperm
      exact hperm
    · have hpw := blocksOf_pairwise (keyS (8 * nb)) (2 ^ (8 * nb))
        (ints.map (toUnsigned (8 * nb)))
      have hmem : ∀ x ∈ blocksOf (keyS (8 * nb)) (List.range' 0 (2 ^ (8 * nb)))
          (ints.map (toUnsigned (8 * nb))), x < 2 ^ (8 * nb) :=
        fun x hx => hl x (mem_blocksOf _ _ _ x hx)
      have hpw2 := hpw.imp_of_mem (fun ha hb hle =>
        (keyS_le_iff_toSigned_le (8 * nb) _ _ hw1 (hmem _ ha) (hmem _ hb)).mp hle)
      exact List.pairwise_map.mpr hpw2
  · decide

/-- C1 witness: the general statement applied to the two-element i32 vector
`[1, -1]` (patterns via `toUnsigned 32`). -/
theorem c1_witness :
    ∃ out, radix_sort_int 4 (([1, -1] : List Int).map (toUnsigned 32)) = some out ∧
      (out.map (toSigned 32)).Perm [1, -1] ∧
      (out.map (toSigned 32)).Sorted (· ≤ ·) :=
  c1_radix_sort_int_signed_sorts.1 4 [1, -1] (by norm_num) (by norm_num)
    (by decide)

set_option maxRecDepth 100000 in
/-- C2: `radix_sort_float` permutes every vector of float bit patterns (any
byte width, covering f32/f64) into ascending order under the sign-corrected
bit-pattern key `keyF`: patterns with the sign bit set come first, in
decreasing raw-pattern order, followed by the remaining patterns in
increasing raw-pattern order.  On ordinary values this is ascending numeric
order, and NaN/infinity patterns are ordered by exactly the same rule with
no special-casing.  In particular the f64 vector
`[f32::MAX+1, 4, 3, 2, 1, -1, -2, -3, -4, f32::MIN-1]` (by its IEEE-754
bit patterns) becomes `[f32::MIN-1, -4, -3, -2, -1, 1, 2, 3, 4, f32::MAX+1]`. -/
theorem c2_radix_sort_float_sorts :
    (∀ (nb : Nat) (l : List Nat), 1 ≤ nb → nb ≤ 32 → (∀ x ∈ l, x < 2 ^ (8 * nb)) →
      ∃ out, radix_sort_float nb l = some out ∧ out.Perm l ∧
        out.Pairwise (fun a b => keyF (8 * nb) a ≤ keyF (8 * nb) b)) ∧
    radix_sort_float 8 [0x47EFFFFFE0000000, 0x4010000000000000, 0x4008000000000000,
        0x4000000000000000, 0x3FF0000000000000, 0xBFF0000000000000, 0xC000000000000000,
        0xC008000000000000, 0xC010000000000000, 0xC7EFFFFFE0000000] =
      some [0xC7EFFFFFE0000000, 0xC010000000000000, 0xC008000000000000,
        0xC000000000000000, 0xBFF0000000000000, 0x3FF0000000000000, 0x4000000000000000,
        0x4008000000000000, 0x4010000000000000, 0x47EFFFFFE0000000] := by
  constructor
  · intro nb l h1 h2 hl
    have hEq := radix_sort_float_eq nb l h1 h2 hl
    have h2p : 2 ^ (8 * nb) = 2 * 2 ^ (8 * nb - 1) := by
      rw [← pow_succ']
      congr 1
      omega
    have hkey_lt : ∀ x ∈ l, keyF (8 * nb) x < 2 ^ (8 * nb) := by
      intro x hx
      have hx2 := hl x hx
      rw [keyF]
      by_cases hc : x < 2 ^ (8 * nb - 1)
      · rw [if_pos hc]; omega
      · rw [if_neg hc]; omega
    refine ⟨_, hEq, blocksOf_perm (keyF (8 * nb)) (2 ^ (8 * nb)) l hkey_lt,
      blocksOf_pairwise (keyF (8 * nb)) (2 ^ (8 * nb)) l⟩
  · decide

/-- C2 witness: the general statement applied to the two-element f32 vector
`[1.0, -1.0]` (patterns `0x3F800000`, `0xBF800000`). -/
theorem c2_witness :
    ∃ out, radix_sort_float 4 [0x3F800000, 0xBF800000] = some out ∧
      out.Perm [0x3F800000, 0xBF800000] ∧
      out.Pairwise (fun a b => keyF (8 * 4) a ≤ keyF (8 * 4) b) :=
  c2_radix_sort_float_sorts.1 4 [0x3F800000, 0xBF800000] (by norm_num) (by norm_num)
    (by decide)

set_option maxRecDepth 100000 in
/-- C3: evaluation at the failing input.  The u32 vector `[2^31, 0]` is
returned unchanged by `radix_sort_int` — the element with the most
significant bit set is bucketed as "negative" and placed first — so the
output is not in ascending unsigned order, contradicting the claim (and the
spec's promise of full-range unsigned sorting), while matching the intent
documented for signed types. -/
theorem c3_unsigned_msb_failing :
    radix_sort_int 4 [2147483648, 0] = some [2147483648, 0] ∧
      ¬ ((2147483648 : Nat) ≤ 0) := by
  decide

/-- C4: both engines always succeed and return a permutation of their input
(same multiset, same length), for every byte width and every input vector. -/
theorem c4_permutation :
    ∀ (nb : Nat) (l : List Nat),
      (∃ out, radix_sort_int nb l = some out ∧ out.Perm l ∧ out.length = l.length) ∧
      (∃ out, radix_sort_float nb l = some out ∧ out.Perm l ∧ out.length = l.length) := by
  intro nb l
  constructor
  · obtain ⟨out, h, hp⟩ := radix_sort_int_some_perm nb l
    exact ⟨out, h, hp, hp.length_eq⟩
  · obtain ⟨out, h, hp⟩ := radix_sort_float_some_perm nb l
    exact ⟨out, h, hp, hp.length_eq⟩

set_option maxRecDepth 100000 in
/-- C5 counterexample: a final float-engine pass on the f32 patterns of
`[-1.0, -1.5]` (`0xBF800000`, `0xBFC00000`), which share the current
(most-significant) byte `0xBF`, emits them in the opposite order: the
decrement-then-write scatter reverses each negative bucket rather than
preserving input order. -/
theorem c5_final_float_pass_reverses :
    floatPass 32 24 true [3212836864, 3217031168] =
        some [3217031168, 3212836864] ∧
      toRadix 32 3212836864 24 = toRadix 32 3217031168 24 ∧
      (3212836864 : Nat) ≠ 3217031168 := by
  decide

/-- C5 (amended): per-pass stability holds for every integer-engine pass and
every non-final float-engine pass — elements with equal current byte keep
their relative order — and in the float engine's final pass it holds for the
non-negative buckets `b < 128`, while each negative bucket `b ≥ 128` appears
in reversed relative order (which is what the decrement-then-write scatter
actually produces, and what the engine's correctness relies on). -/
theorem c5_per_pass_stability :
    ∀ (w s : Nat) (fin : Bool) (l out : List Nat) (b : Nat), b < NUM_BUCKETS →
      (intPass w s fin l = some out →
        out.filter (fun x => toRadix w x s = b) =
          l.filter (fun x => toRadix w x s = b)) ∧
      (floatPass w s false l = some out →
        out.filter (fun x => toRadix w x s = b) =
          l.filter (fun x => toRadix w x s = b)) ∧
      (floatPass w s true l = some out →
        (b < FIRST_NEG_BUCKET →
          out.filter (fun x => toRadix w x s = b) =
            l.filter (fun x => toRadix w x s = b)) ∧
        (FIRST_NEG_BUCKET ≤ b →
          out.filter (fun x => toRadix w x s = b) =
            (l.filter (fun x => toRadix w x s = b)).reverse)) := by
  intro w s fin l out b hb
  exact ⟨intPass_stable w s fin l out b hb,
    floatPass_nonfinal_stable w s l out b hb,
    floatPass_final_classes w s l out b hb⟩

/-- C5 witness: the amended statement applied to a concrete one-element
non-final integer pass. -/
theorem c5_per_pass_stability_witness :
    ([5] : List Nat).filter (fun x => toRadix 32 x 0 = 5) =
      ([5] : List Nat).filter (fun x => toRadix 32 x 0 = 5) :=
  (c5_per_pass_stability 32 0 false [5] [5] 5 (by norm_num [NUM_BUCKETS])).1
    (by decide)

/-- C6: in the checked embedding of the unchecked scatter accesses, neither
engine ever takes the out-of-bounds branch — every destination index is
below the vector length, every table index is below 256 — so both engines
return `some` on every input; and the byte extractor always yields a bucket
index below `NUM_BUCKETS`. -/
theorem c6_unchecked_indices_in_bounds :
    ∀ (nb : Nat) (l : List Nat),
      (radix_sort_int nb l).isSome = true ∧
      (radix_sort_float nb l).isSome = true ∧
      ∀ (w x s : Nat), toRadix w x s < NUM_BUCKETS := by
  intro nb l
  refine ⟨?_, ?_, fun w x s => toRadix_lt_numBuckets w x s⟩
  · obtain ⟨out, h, _⟩ := radix_sort_int_some_perm nb l
    rw [h]
    rfl
  · obtain ⟨out, h, _⟩ := radix_sort_float_some_perm nb l
    rw [h]
    rfl

/-- C7: for every `w`-bit pattern and byte-aligned offset `8i` inside the
type width, `to_radix` returns exactly the byte `x / 2^(8i) % 256` of the
unsigned bit pattern, a value in `[0, 255]`; and the signed-integer
instances extract the same byte of the two's-complement reinterpretation
(`toUnsigned`).  Float instances operate directly on the IEEE-754 pattern
`x`, so the first conjunct covers them for every pattern, including NaN and
infinity patterns. -/
theorem c7_to_radix_bytes :
    ∀ (w x i : Nat), 8 * i + 8 ≤ w → x < 2 ^ w →
      (toRadix w x (8 * i) = x / 2 ^ (8 * i) % 256 ∧ toRadix w x (8 * i) ≤ 255) ∧
      ∀ v : Int, toRadixInt w v (8 * i) = toUnsigned w v / 2 ^ (8 * i) % 256 := by
  intro w x i h hx
  refine ⟨⟨toRadix_eq w x (8 * i) h, toRadix_le w x (8 * i)⟩, fun v => ?_⟩
  rw [toRadixInt]
  exact toRadix_eq w (toUnsigned w v) (8 * i) h

/-- C7 witness: the byte at offset 8 of the u32 pattern `0x12345678` and of
the i32 value `-5`. -/
theorem c7_witness :
    (toRadix 32 0x12345678 (8 * 1) = 0x12345678 / 2 ^ (8 * 1) % 256 ∧
      toRadix 32 0x12345678 (8 * 1) ≤ 255) ∧
    toRadixInt 32 (-5) (8 * 1) = toUnsigned 32 (-5) / 2 ^ (8 * 1) % 256 :=
  ⟨(c7_to_radix_bytes 32 0x12345678 1 (by norm_num) (by norm_num)).1,
    (c7_to_radix_bytes 32 0x12345678 1 (by norm_num) (by norm_num)).2 (-5)⟩

set_option maxRecDepth 100000 in
/-- C8 counterexample: for the single f32 pattern `0xFF000000` (current byte
255 in the final pass), the offset table handed to the scatter — which is
`offsetsFloatFinal` of the counts, by definition of `floatPass` — has
`offset[255] = 1`, not `0`: the code adds `counts[i]` to every negative
bucket after the descending prefix sum and before scattering. -/
theorem c8_scatter_start_offset_nonzero :
    offsetsFloatFinal (countLoop (fun x => toRadix 32 x 24) [4278190080]) 255 = 1 ∧
      offsetsFloatFinal (countLoop (fun x => toRadix 32 x 24) [4278190080]) 255 ≠ 0 := by
  decide

/-- C8 (amended): the descending exclusive prefix sum does hold for the
table produced by the descending loop, before the per-bucket count
adjustment (`offsetsFloatPre`): `pre[255] = 0` and
`pre[k] = pre[k+1] + counts[k+1]` for `k` from 254 down to 128; the table at
the start of the scatter is that table plus `counts[b]` on every negative
bucket. -/
theorem c8_descending_prefix_sums :
    ∀ (c : Nat → Nat),
      offsetsFloatPre c 255 = 0 ∧
      (∀ k, 128 ≤ k → k ≤ 254 →
        offsetsFloatPre c k = offsetsFloatPre c (k + 1) + c (k + 1)) ∧
      (∀ b, 128 ≤ b → b ≤ 255 →
        offsetsFloatFinal c b = offsetsFloatPre c b + c b) := by
  intro c
  have hN : NUM_BUCKETS = 256 := rfl
  refine ⟨rfl, ?_, ?_⟩
  · intro k h1 h2
    have e1 : NUM_BUCKETS - 1 - k = (NUM_BUCKETS - 1 - (k + 1)) + 1 := by omega
    rw [offsetsFloatPre, offsetsFloatPre, e1, offsetsDescF]
    congr 2
    omega
  · intro b h1 h2
    rw [offsetsFloatFinal, if_neg (by rw [show FIRST_NEG_BUCKET = 128 from rfl]; omega)]

/-- C8 witness: the amended statement applied to the all-ones count table at
buckets 130 and 200. -/
theorem c8_witness :
    offsetsFloatPre (fun _ => 1) 255 = 0 ∧
    offsetsFloatPre (fun _ => 1) 130 = offsetsFloatPre (fun _ => 1) 131 + 1 ∧
    offsetsFloatFinal (fun _ => 1) 200 = offsetsFloatPre (fun _ => 1) 200 + 1 :=
  ⟨(c8_descending_prefix_sums (fun _ => 1)).1,
    (c8_descending_prefix_sums (fun _ => 1)).2.1 130 (by norm_num) (by norm_num),
    (c8_descending_prefix_sums (fun _ => 1)).2.2 200 (by norm_num) (by norm_num)⟩

set_option maxRecDepth 100000 in
/-- C9 (spec-modelled): `radix_sort_inplace`, reconstructed from the spec's
description of the single-bit-mask engine, sorts every u32 vector ascending
whenever the supplied bound dominates every element; in particular
`[4, 3, 2, 1]` with `max_value = u32::MAX` becomes `[1, 2, 3, 4]`. -/
theorem c9_radix_sort_inplace_sorts :
    (∀ (maxValue : Nat) (l : List Nat),
      (∀ x ∈ l, x < 2 ^ 32) → (∀ x ∈ l, x ≤ maxValue) →
      (radix_sort_inplace maxValue l).Perm l ∧
        (radix_sort_inplace maxValue l).Sorted (· ≤ ·)) ∧
    radix_sort_inplace 4294967295 [4, 3, 2, 1] = [1, 2, 3, 4] := by
  constructor
  · exact radix_sort_inplace_sorted_perm
  · decide

/-- C9 witness: the general statement applied to `[2, 1]` with bound `10`. -/
theorem c9_witness :
    (radix_sort_inplace 10 [2, 1]).Perm [2, 1] ∧
      (radix_sort_inplace 10 [2, 1]).Sorted (· ≤ ·) :=
  c9_radix_sort_inplace_sorts.1 10 [2, 1] (by decide) (by decide)

/-- C10: on every vector of unsigned patterns, `radix_sort_int` returns a
permutation ordered by the signed two's-complement reinterpretation: every
element with the most significant bit set precedes every element with it
clear, and elements agreeing on that bit are in ascending unsigned order. -/
theorem c10_unsigned_sorted_as_signed :
    ∀ (nb : Nat) (l : List Nat), 1 ≤ nb → nb ≤ 32 →
      (∀ x ∈ l, x < 2 ^ (8 * nb)) →
      ∃ out, radix_sort_int nb l = some out ∧ out.Perm l ∧
        out.Pairwise (fun a b =>
          (2 ^ (8 * nb - 1) ≤ a ∧ b < 2 ^ (8 * nb - 1)) ∨
          ((2 ^ (8 * nb - 1) ≤ a ↔ 2 ^ (8 * nb - 1) ≤ b) ∧ a ≤ b)) := by
  intro nb l h1 h2 hl
  have hw1 : 1 ≤ 8 * nb := by omega
  have hEq := radix_sort_int_eq nb l h1 h2 hl
  have hkey_lt : ∀ x ∈ l, keyS (8 * nb) x < 2 ^ (8 * nb) := fun x _ => by
    rw [keyS]
    exact Nat.mod_lt _ (Nat.pos_pow_of_pos _ (by norm_num))
  have hmem : ∀ x ∈ blocksOf (keyS (8 * nb)) (List.range' 0 (2 ^ (8 * nb))) l,
      x < 2 ^ (8 * nb) := fun x hx => hl x (mem_blocksOf _ _ _ x hx)
  refine ⟨_, hEq, blocksOf_perm (keyS (8 * nb)) (2 ^ (8 * nb)) l hkey_lt, ?_⟩
  exact (blocksOf_pairwise (keyS (8 * nb)) (2 ^ (8 * nb)) l).imp_of_mem
    (fun ha hb hle =>
      (keyS_le_iff_msb (8 * nb) _ _ hw1 (hmem _ ha) (hmem _ hb)).mp hle)

/-- C10 witness: applied to the u32 vector `[2^31, 0]`, whose output places
the MSB-set element first. -/
theorem c10_witness :
    ∃ out, radix_sort_int 4 [2147483648, 0] = some out ∧
      out.Perm [2147483648, 0] ∧
      out.Pairwise (fun a b =>
        (2 ^ (8 * 4 - 1) ≤ a ∧ b < 2 ^ (8 * 4 - 1)) ∨
        ((2 ^ (8 * 4 - 1) ≤ a ↔ 2 ^ (8 * 4 - 1) ≤ b) ∧ a ≤ b)) :=
  c10_unsigned_sorted_as_signed 4 [2147483648, 0] (by norm_num) (by norm_num)
    (by decide)

end RadixRs
